import Mathlib

/-!
# ScalarField2PNGSlice

A shallow embedding of `main.go`: the sample loader `readFileToMemory`, the
range reducer `getMinAndMax` and the slicer `saveImagesFromArray`.

Conventions of the embedding.

* Go `int` values (`width`, `height`, `depth`, `permutation`, `numLogs`, flat
  indices) are unbounded integers (`Int`); loop counters, which start at `0` and
  only count upwards, are naturals.  `gatherIndex64_eq_gatherIndex` shows that
  the index arithmetic does not wrap around at 64 bits on a volume that fits a
  Go slice.
* A `float32` is represented by its 32-bit pattern (a natural number).  The
  comparisons `<` and `>` are the IEEE-754 ones, computed on the pattern.  The
  arithmetic used by the normalisation (`-`, `/`, `*`, the conversion to
  `uint8`) and `math.Log` are taken as parameters (`FloatOps`, `logStep`).
  Two instances of `FloatOps` take the arithmetic exactly: `exactOps` on rational
  samples, and `sampleOps` on the exact values of `float32` patterns
  (`f32Value`), infinities and NaN included.
* A function that can panic returns `none` (`Option`) or aborts with `panic`
  (`Except Abort`).
* The output side (`os.Create`, `zw.Create`, `png.Encode`) is a record of
  answers, `OutputEnv`; the archive is the list of entries written.
-/

namespace ScalarField2PNGSlice

/-! ## Permutation dispatch of `saveImagesFromArray` -/

/-- The first `switch permutation` of `saveImagesFromArray`: the assignment of
`(length1, length2, length3)`; `none` is the `default` branch. -/
def permutedLengths (width height depth permutation : Int) : Option (Int × Int × Int) :=
  if permutation = 123 then some (width, height, depth)
  else if permutation = 132 then some (width, depth, height)
  else if permutation = 213 then some (height, width, depth)
  else if permutation = 231 then some (height, depth, width)
  else if permutation = 312 then some (depth, width, height)
  else if permutation = 321 then some (depth, height, width)
  else none

/-- The second `switch permutation` of `saveImagesFromArray`: the index at which
`packedData` is read for the raster coordinate `(x, y)` of slice `d`; `none` is
the `default` branch. -/
def gatherIndex (width height permutation : Int) (x y d : Nat) : Option Int :=
  if permutation = 123 then some (d * width * height + y * width + x)
  else if permutation = 132 then some (y * width * height + d * width + x)
  else if permutation = 213 then some (d * width * height + x * width + y)
  else if permutation = 231 then some (y * width * height + x * width + d)
  else if permutation = 312 then some (x * width * height + d * width + y)
  else if permutation = 321 then some (x * width * height + y * width + d)
  else none

/-- The six permutation codes accepted by both switches. -/
def validPermutations : List Int := [123, 132, 213, 231, 312, 321]

/-! ### The specification's reading of a permutation code -/

/-- The three decimal digits `(a, b, c)` of a permutation code. -/
def permDigits (permutation : Int) : Int × Int × Int :=
  (permutation / 100, permutation / 10 % 10, permutation % 10)

/-- The length of canonical axis `axis`: 1 = width, 2 = height, 3 = depth. -/
def axisLength (width height depth : Int) (axis : Int) : Int :=
  if axis = 1 then width else if axis = 2 then height else depth

/-- Put the value `v` at canonical axis `axis` of the triple `(x_c, y_c, d_c)`. -/
def assignAxis (t : Nat × Nat × Nat) (axis : Int) (v : Nat) : Nat × Nat × Nat :=
  if axis = 1 then (v, t.2.1, t.2.2)
  else if axis = 2 then (t.1, v, t.2.2)
  else (t.1, t.2.1, v)

/-- The canonical triple `(x_c, y_c, d_c)` of the raster coordinate `(x, y, d)`
under the code with digits `(a, b, c)`: `x` goes to axis `a`, `y` to axis `b`,
`d` to axis `c`. -/
def canonicalTriple (permutation : Int) (x y d : Nat) : Nat × Nat × Nat :=
  let (a, b, c) := permDigits permutation
  assignAxis (assignAxis (assignAxis (0, 0, 0) a x) b y) c d

/-- The canonical flat index `d_c*width*height + y_c*width + x_c`. -/
def canonicalIndex (width height : Int) (t : Nat × Nat × Nat) : Int :=
  t.2.2 * width * height + t.2.1 * width + t.1

/-! ## Floating-point samples -/

/-- IEEE-754 binary32: the pattern `b` is a NaN when its exponent field is all
ones and its fraction is not zero, i.e. when its low 31 bits exceed those of
infinity. -/
def f32IsNaN (b : Nat) : Bool := decide (0x7F800000 < b % 2 ^ 31)

/-- The position of a non-NaN pattern on the real line, up to a strictly
increasing map: sign bit and magnitude.  Both zeros have key `0`. -/
def f32Key (b : Nat) : Int :=
  if b / 2 ^ 31 % 2 = 1 then -((b % 2 ^ 31 : Nat) : Int) else ((b % 2 ^ 31 : Nat) : Int)

/-- The Go comparison `a < b` on `float32` values: false as soon as one operand
is a NaN. -/
def f32Lt (a b : Nat) : Bool :=
  !f32IsNaN a && !f32IsNaN b && decide (f32Key a < f32Key b)

/-- The Go comparison `a <= b` on `float32` values. -/
def f32Le (a b : Nat) : Bool :=
  !f32IsNaN a && !f32IsNaN b && decide (f32Key a ≤ f32Key b)

/-- The Go negation `-a` on a `float32`: the sign bit is flipped. -/
def f32Neg (b : Nat) : Nat :=
  if b / 2 ^ 31 % 2 = 1 then b - 2 ^ 31 else b + 2 ^ 31

/-- The floating-point operations used by `getMinAndMax` and by the
normalisation line of `saveImagesFromArray`, on a sample type `F`. -/
structure FloatOps (F : Type) where
  /-- The comparison `a < b`; `a > b` is `lt b a`. -/
  lt : F → F → Bool
  /-- The difference `a - b`. -/
  sub : F → F → F
  /-- The quotient `a / b`. -/
  div : F → F → F
  /-- The product `a * b`. -/
  mul : F → F → F
  /-- The constant `math.MaxUint8` as a sample. -/
  maxUint8 : F
  /-- The conversion `uint8(element)`. -/
  toUint8 : F → Fin 256

/-! ## `getMinAndMax` -/

/-- One iteration of the `range` loop of `getMinAndMax` on the pair `(min, max)`. -/
def minMaxStep {F : Type} (lt : F → F → Bool) (acc : F × F) (element : F) : F × F :=
  let min := if lt element acc.1 then element else acc.1
  let max := if lt acc.2 element then element else acc.2
  (min, max)

/-- The function `getMinAndMax`; `none` is the panic of `packedData[0]` on an
empty slice. -/
def getMinAndMax {F : Type} (lt : F → F → Bool) (packedData : List F) : Option (F × F) :=
  match packedData[0]? with
  | none => none
  | some first => some (packedData.foldl (minMaxStep lt) (first, first))

/-! ## `readFileToMemory` -/

/-- How a function stops other than by returning normally. -/
inductive Abort where
  /-- A run-time panic (index or slice bounds out of range). -/
  | panic : Abort
  /-- A returned error value. -/
  | error (msg : String) : Abort
  deriving DecidableEq, Repr

/-- A Go byte slice: its `len` bytes, and the bytes of the backing array that lie
between `len` and `cap`. -/
structure ByteSlice where
  /-- The bytes at indices `0 .. len-1`. -/
  data : List (Fin 256)
  /-- The bytes at indices `len .. cap-1`. -/
  spare : List (Fin 256)

/-- The slice expression `rawData[i:i+4]`: it panics when `i+4` exceeds the
capacity, and otherwise yields the four bytes at `i .. i+3` of the backing array. -/
def sliceFour (rawData : ByteSlice) (i : Nat) : Option (List (Fin 256)) :=
  if i + 4 ≤ rawData.data.length + rawData.spare.length then
    some (((rawData.data ++ rawData.spare).drop i).take 4)
  else none

/-- The function `binary.LittleEndian.Uint32`; `none` is the panic of `b[3]`. -/
def littleEndianUint32 (b : List (Fin 256)) : Option Nat :=
  match b[3]? with
  | none => none
  | some b3 =>
    some (b[0]!.val ||| b[1]!.val <<< 8 ||| b[2]!.val <<< 16 ||| b3.val <<< 24)

/-- The body of the decoding loop of `readFileToMemory` at offset `i`. -/
def decodeSample (logStep : Nat → Nat) (rawData : ByteSlice) (invert : Bool) (numLogs : Int)
    (packedData : List Nat) (i : Nat) : Except Abort (List Nat) :=
  match sliceFour rawData i with
  | none => .error .panic
  | some group =>
    match littleEndianUint32 group with
    | none => .error .panic
    | some rawBits =>
      let amplitude := rawBits
      let amplitude := if invert then f32Neg amplitude else amplitude
      let amplitude := Nat.iterate logStep numLogs.toNat amplitude
      .ok (packedData ++ [amplitude])

/-- The offsets visited by `for i := 0; i < n; i += 4`. -/
def loopOffsets (n : Nat) : List Nat := (List.range ((n + 3) / 4)).map (fun k => 4 * k)

/-- The function `readFileToMemory`.  `file` is what `os.ReadFile(inputPath)`
returns; `logStep` is `float32(math.Log(float64(amplitude+1)))`. -/
def readFileToMemory (logStep : Nat → Nat) (file : Except String ByteSlice) (invert : Bool)
    (numLogs : Int) : Except Abort (List Nat) :=
  match file with
  | .error err => .error (.error err)
  | .ok rawData =>
    (loopOffsets rawData.data.length).foldlM (decodeSample logStep rawData invert numLogs) []

/-! ## Images and the archive -/

/-- An `image.Rectangle`. -/
structure Rectangle where
  /-- The field `Min.X`. -/
  minX : Int
  /-- The field `Min.Y`. -/
  minY : Int
  /-- The field `Max.X`. -/
  maxX : Int
  /-- The field `Max.Y`. -/
  maxY : Int
  deriving DecidableEq, Repr

/-- The function `image.Rect`: the corners are put in order. -/
def imageRect (x0 y0 x1 y1 : Int) : Rectangle :=
  { minX := if x0 > x1 then x1 else x0, minY := if y0 > y1 then y1 else y0,
    maxX := if x0 > x1 then x0 else x1, maxY := if y0 > y1 then y0 else y1 }

/-- The method `Rectangle.Dx`. -/
def Rectangle.dx (r : Rectangle) : Int := r.maxX - r.minX

/-- The method `Rectangle.Dy`. -/
def Rectangle.dy (r : Rectangle) : Int := r.maxY - r.minY

/-- The method `Point.In`. -/
def Rectangle.contains (r : Rectangle) (x y : Int) : Bool :=
  decide (r.minX ≤ x) && decide (x < r.maxX) && decide (r.minY ≤ y) && decide (y < r.maxY)

/-- An `image.Gray`. -/
structure Gray where
  /-- The field `Pix`. -/
  pix : List (Fin 256)
  /-- The field `Stride`. -/
  stride : Int
  /-- The field `Rect`. -/
  rect : Rectangle
  deriving DecidableEq, Repr

/-- The function `image.NewGray`. -/
def newGray (r : Rectangle) : Gray :=
  { pix := List.replicate (r.dx * r.dy).toNat 0, stride := r.dx, rect := r }

/-- The method `Gray.PixOffset`. -/
def Gray.pixOffset (p : Gray) (x y : Int) : Int :=
  (y - p.rect.minY) * p.stride + (x - p.rect.minX)

/-- The method `Gray.SetGray`. -/
def Gray.setGray (p : Gray) (x y : Int) (c : Fin 256) : Gray :=
  if p.rect.contains x y then { p with pix := p.pix.set (p.pixOffset x y).toNat c } else p

/-- The method `Gray.GrayAt`. -/
def Gray.grayAt (p : Gray) (x y : Int) : Fin 256 :=
  if p.rect.contains x y then p.pix.getD (p.pixOffset x y).toNat 0 else 0

/-- One entry of the output archive: its name, the raster handed to
`png.Encode`, and the error `png.Encode` returned (which the caller drops). -/
structure Entry where
  /-- The name passed to `zw.Create`. -/
  name : String
  /-- The raster passed to `png.Encode`. -/
  img : Gray
  /-- The value returned by `png.Encode`. -/
  encodeErr : Option String
  deriving DecidableEq, Repr

/-- The answers of the output side: the file system and the archive writer. -/
structure OutputEnv where
  /-- The error of `os.Create(outputPath)`, if any. -/
  osCreate : Option String
  /-- The error of `zw.Create` for slice `d`, if any. -/
  zwCreate : Nat → Option String
  /-- The error met by `png.Encode` while writing slice `d`, if any. -/
  pngWrite : Nat → Option String

/-- An output side on which nothing fails. -/
def quietEnv : OutputEnv :=
  { osCreate := none, zwCreate := fun _ => none, pngWrite := fun _ => none }

/-- The function `png.Encode`: an image whose width or height is not in
`[1, 2^32)` is refused, otherwise the result is that of the writes. -/
def pngEncode (env : OutputEnv) (d : Nat) (img : Gray) : Option String :=
  if img.rect.dx ≤ 0 ∨ img.rect.dy ≤ 0 ∨ 2 ^ 32 ≤ img.rect.dx ∨ 2 ^ 32 ≤ img.rect.dy then
    some "png: invalid format: invalid image size"
  else env.pngWrite d

/-- The verb `%0*d` of `fmt.Sprintf` with width `width`, for `d ≥ 0`: the decimal
digits of `d`, preceded by zeros up to the width. -/
def zeroPadded (width d : Nat) : String :=
  String.mk (List.replicate (width - (Nat.toDigits 10 d).length) '0' ++ Nat.toDigits 10 d)

/-- The entry name `fmt.Sprintf("image.%0*d.png", 5, d)`. -/
def entryName (d : Nat) : String := "image." ++ zeroPadded 5 d ++ ".png"

/-! ## `saveImagesFromArray` -/

/-- The message of the error returned by the `default` branches. -/
def invalidPermutationMessage : String :=
  "Error using permutation. Must be a three digit number containing 1, 2, and 3"

/-- The index expression `packedData[i]`; `none` is the panic. -/
def indexSlice {F : Type} (packedData : List F) (i : Int) : Option F :=
  if i < 0 then none else packedData[i.toNat]?

/-- The normalisation line `(element-min)/(max-min) * math.MaxUint8`. -/
def normalize {F : Type} (ops : FloatOps F) (min max element : F) : F :=
  ops.mul (ops.div (ops.sub element min) (ops.sub max min)) ops.maxUint8

/-- The body of the innermost loop of `saveImagesFromArray`. -/
def setPixel {F : Type} (ops : FloatOps F) (packedData : List F)
    (width height permutation : Int) (min max : F) (d y : Nat) (img : Gray) (x : Nat) :
    Except Abort Gray :=
  match gatherIndex width height permutation x y d with
  | none => .error (.error invalidPermutationMessage)
  | some i =>
    match indexSlice packedData i with
    | none => .error .panic
    | some element =>
      .ok (img.setGray x y (ops.toUint8 (normalize ops min max element)))

/-- The loop over `x` for row `y` of slice `d`. -/
def renderRow {F : Type} (ops : FloatOps F) (packedData : List F)
    (width height permutation : Int) (min max : F) (length1 : Int) (d : Nat) (img : Gray)
    (y : Nat) : Except Abort Gray :=
  (List.range length1.toNat).foldlM
    (setPixel ops packedData width height permutation min max d y) img

/-- The raster of slice `d`: `image.NewGray` followed by the loops over `y` and `x`. -/
def renderSlice {F : Type} (ops : FloatOps F) (packedData : List F)
    (width height permutation : Int) (min max : F) (length1 length2 : Int) (d : Nat) :
    Except Abort Gray :=
  (List.range length2.toNat).foldlM
    (renderRow ops packedData width height permutation min max length1 d)
    (newGray (imageRect 0 0 length1 length2))

/-- What `saveImagesFromArray` leaves behind: how it stopped, and the entries
written to the archive, in writing order. -/
structure Outcome where
  /-- The normal return of `nil` (`.ok ()`), a returned error, or a panic. -/
  result : Except Abort Unit
  /-- The archive entries. -/
  entries : List Entry

/-- The loop over `d` of `saveImagesFromArray`, on the slice indices still to do
and the entries written so far. -/
def sliceLoop {F : Type} (ops : FloatOps F) (env : OutputEnv) (packedData : List F)
    (width height permutation : Int) (min max : F) (length1 length2 : Int) :
    List Nat → List Entry → Outcome
  | [], written => { result := .ok (), entries := written }
  | d :: rest, written =>
    match renderSlice ops packedData width height permutation min max length1 length2 d with
    | .error a => { result := .error a, entries := written }
    | .ok img =>
      match env.zwCreate d with
      | some err => { result := .error (.error err), entries := written }
      | none =>
        sliceLoop ops env packedData width height permutation min max length1 length2 rest
          (written ++ [{ name := entryName d, img := img, encodeErr := pngEncode env d img }])

/-- The function `saveImagesFromArray`.  The parameter `outputPath` is replaced
by `env`, the answers of the output side. -/
def saveImagesFromArray {F : Type} (ops : FloatOps F) (env : OutputEnv) (packedData : List F)
    (width height depth permutation : Int) : Outcome :=
  match env.osCreate with
  | some err => { result := .error (.error err), entries := [] }
  | none =>
    match getMinAndMax ops.lt packedData with
    | none => { result := .error .panic, entries := [] }
    | some (min, max) =>
      match permutedLengths width height depth permutation with
      | none => { result := .error (.error invalidPermutationMessage), entries := [] }
      | some (length1, length2, length3) =>
        sliceLoop ops env packedData width height permutation min max length1 length2
          (List.range length3.toNat) []

/-! ## 64-bit index arithmetic -/

/-- A Go `int` on a 64-bit platform: the value of `z` after wrap-around. -/
def wrapInt64 (z : Int) : Int := (z + 2 ^ 63) % 2 ^ 64 - 2 ^ 63

/-- The expression `a*width*height + b*width + c` as the machine evaluates it:
every product and every sum wraps around at 64 bits. -/
def flatIndex64 (width height : Int) (a b c : Nat) : Int :=
  wrapInt64 (wrapInt64 (wrapInt64 (wrapInt64 (a * width) * height) + wrapInt64 (b * width)) + c)

/-- The second `switch permutation` of `saveImagesFromArray` in 64-bit arithmetic. -/
def gatherIndex64 (width height permutation : Int) (x y d : Nat) : Option Int :=
  if permutation = 123 then some (flatIndex64 width height d y x)
  else if permutation = 132 then some (flatIndex64 width height y d x)
  else if permutation = 213 then some (flatIndex64 width height d x y)
  else if permutation = 231 then some (flatIndex64 width height y x d)
  else if permutation = 312 then some (flatIndex64 width height x d y)
  else if permutation = 321 then some (flatIndex64 width height x y d)
  else none

/-! ## Predicates and models used by the statements -/

/-- The raster of slice `d` while the loops of `saveImagesFromArray` run: its
geometry is that of `image.NewGray(image.Rect(0, 0, length1, length2))`, and its
first `n` pixels, in row-major order, hold the normalised samples. -/
def RasterFilled {F : Type} (ops : FloatOps F) (packedData : List F)
    (width height permutation : Int) (min max : F) (length1 length2 d n : Nat)
    (img : Gray) : Prop :=
  img.rect = { minX := 0, minY := 0, maxX := length1, maxY := length2 } ∧
  img.stride = length1 ∧
  img.pix.length = length1 * length2 ∧
  ∀ o : Nat, o < n → ∀ (i : Int) (v : F),
    gatherIndex width height permutation (o % length1) (o / length1) d = some i →
    indexSlice packedData i = some v →
    img.pix[o]? = some (ops.toUint8 (normalize ops min max v))

/-- The slice `d` can be read: every raster coordinate has an index that lies
inside `packedData`. -/
def SliceReadable {F : Type} (packedData : List F) (width height permutation : Int)
    (length1 length2 d : Nat) : Prop :=
  ∀ x y : Nat, x < length1 → y < length2 → ∃ (i : Int) (v : F),
    gatherIndex width height permutation x y d = some i ∧ indexSlice packedData i = some v

/-- Exact arithmetic on rational samples, with the conversion to `uint8` done by
truncation towards zero and reduction modulo 256. -/
def exactOps : FloatOps ℚ :=
  { lt := fun a b => decide (a < b)
    sub := fun a b => a - b
    div := fun a b => a / b
    mul := fun a b => a * b
    maxUint8 := 255
    toUint8 := fun v =>
      ⟨(Int.tdiv v.num v.den % 256).toNat, by
        have h := Int.emod_lt_of_pos (Int.tdiv v.num v.den) (by decide : (0 : Int) < 256)
        have h0 := Int.emod_nonneg (Int.tdiv v.num v.den) (by decide : (256 : Int) ≠ 0)
        omega⟩ }

/-- The name of slice `d` as the specification words it: `image.`, then the five
decimal digits of `d`, then `.png`. -/
def fiveDigitName (d : Nat) : String :=
  "image." ++ String.mk [Nat.digitChar (d / 10000 % 10), Nat.digitChar (d / 1000 % 10),
    Nat.digitChar (d / 100 % 10), Nat.digitChar (d / 10 % 10), Nat.digitChar (d % 10)] ++ ".png"

/-! ## The decoding loop, read as a whole -/

/-- The bits read by the loop body of `readFileToMemory` at offset `i`: the slice
`rawData[i:i+4]` decoded by `binary.LittleEndian.Uint32`; `none` is a panic. -/
def rawBitsAt (rawData : ByteSlice) (i : Nat) : Option Nat :=
  match sliceFour rawData i with
  | none => none
  | some group => littleEndianUint32 group

/-- The bits read at the offsets `offsets`, in order; `none` when one read panics. -/
def decodeGroups (rawData : ByteSlice) : List Nat → Option (List Nat)
  | [] => some []
  | i :: rest =>
    match rawBitsAt rawData i with
    | none => none
    | some v =>
      match decodeGroups rawData rest with
      | none => none
      | some vs => some (v :: vs)

/-- What the loop body of `readFileToMemory` does to a decoded sample: the sign
flip when `invert` is set, then `numLogs` log steps. -/
def sampleTransform (logStep : Nat → Nat) (invert : Bool) (numLogs : Int) (v : Nat) : Nat :=
  Nat.iterate logStep numLogs.toNat (if invert then f32Neg v else v)

/-! ## The coordinate reordering of each permutation code -/

/-- The coordinate reordering of the second `switch permutation`: for the raster
coordinate `(x, y, d)`, the triple `(x_c, y_c, d_c)` that the index expression of
the code reads as `d_c*width*height + y_c*width + x_c`; `none` is the `default`
branch. -/
def gatherTriple (permutation : Int) (t : Nat × Nat × Nat) : Option (Nat × Nat × Nat) :=
  if permutation = 123 then some (t.1, t.2.1, t.2.2)
  else if permutation = 132 then some (t.1, t.2.2, t.2.1)
  else if permutation = 213 then some (t.2.1, t.1, t.2.2)
  else if permutation = 231 then some (t.2.2, t.1, t.2.1)
  else if permutation = 312 then some (t.2.1, t.2.2, t.1)
  else if permutation = 321 then some (t.2.2, t.2.1, t.1)
  else none

/-- Reading through code `q` and then through code `p`: the reordering of `q`
followed by the reordering of `p`. -/
def gatherTwice (p q : Int) (t : Nat × Nat × Nat) : Option (Nat × Nat × Nat) :=
  match gatherTriple q t with
  | none => none
  | some u => gatherTriple p u

/-- The pairs of codes whose reorderings undo each other. -/
def inversePairs : List (Int × Int) :=
  [(123, 123), (132, 132), (213, 213), (321, 321), (231, 312), (312, 231)]

/-! ## Output sides that fail -/

/-- An output side on which every write of image data fails, while the file and
the entries can be created. -/
def failingWriteEnv : OutputEnv :=
  { osCreate := none, zwCreate := fun _ => none, pngWrite := fun _ => some "write failed" }

/-- An output side on which no entry can be created. -/
def failingCreateEnv : OutputEnv :=
  { osCreate := none, zwCreate := fun _ => some "create failed", pngWrite := fun _ => none }

/-- Equality of the ways `saveImagesFromArray` can stop is decidable. -/
instance decEqResult : DecidableEq (Except Abort Unit) := fun a b =>
  match a, b with
  | .ok (), .ok () => isTrue rfl
  | .error x, .error y =>
    if h : x = y then isTrue (by rw [h]) else isFalse (fun hh => h (Except.error.inj hh))
  | .ok _, .error _ => isFalse (fun hh => nomatch hh)
  | .error _, .ok _ => isFalse (fun hh => nomatch hh)

/-! ## The check of the permutation code in `main` -/

/-- The `switch` of `main` on the `-perm` argument: `false` is its `default`
branch, which prints an error and exits before `readFileToMemory` and
`saveImagesFromArray` are called. -/
def mainAcceptsPermutation (permutation : Int) : Bool :=
  if permutation = 123 then true
  else if permutation = 132 then true
  else if permutation = 213 then true
  else if permutation = 231 then true
  else if permutation = 312 then true
  else if permutation = 321 then true
  else false

/-! ## Exact arithmetic with infinities and NaN -/

/-- A `float32` sample with its value taken exactly: a finite number, one of the
two infinities, or a NaN.  The two zeros, which compare equal, are both the
finite number `0`. -/
inductive Sample where
  | finite (q : ℚ)
  | posInf
  | negInf
  | nan
  deriving DecidableEq

/-- The comparison `a < b` of IEEE-754: false as soon as one operand is a NaN. -/
def Sample.lt : Sample → Sample → Bool
  | .finite a, .finite b => decide (a < b)
  | .finite _, .posInf => true
  | .negInf, .finite _ => true
  | .negInf, .posInf => true
  | _, _ => false

/-- The difference `a - b` of IEEE-754, exact on finite operands: the difference
of two infinities of the same sign is a NaN. -/
def Sample.sub : Sample → Sample → Sample
  | .finite a, .finite b => .finite (a - b)
  | .finite _, .posInf => .negInf
  | .finite _, .negInf => .posInf
  | .posInf, .finite _ => .posInf
  | .posInf, .negInf => .posInf
  | .negInf, .finite _ => .negInf
  | .negInf, .posInf => .negInf
  | _, _ => .nan

/-- The quotient `a / b` of IEEE-754, exact on finite operands.  Division by zero
does not panic: it gives an infinity, or a NaN for `0 / 0`; a zero divisor counts
as `+0`, the zero that a difference of equal numbers is.  The quotient of two
infinities is a NaN. -/
def Sample.div : Sample → Sample → Sample
  | .finite a, .finite b =>
    if b = 0 then (if a = 0 then .nan else if 0 < a then .posInf else .negInf)
    else .finite (a / b)
  | .finite _, .posInf => .finite 0
  | .finite _, .negInf => .finite 0
  | .posInf, .finite b => if 0 ≤ b then .posInf else .negInf
  | .negInf, .finite b => if 0 ≤ b then .negInf else .posInf
  | _, _ => .nan

/-- The product `a * b` of IEEE-754, exact on finite operands: the product of an
infinity and zero is a NaN. -/
def Sample.mul : Sample → Sample → Sample
  | .finite a, .finite b => .finite (a * b)
  | .finite a, .posInf => if a = 0 then .nan else if 0 < a then .posInf else .negInf
  | .finite a, .negInf => if a = 0 then .nan else if 0 < a then .negInf else .posInf
  | .posInf, .finite b => if b = 0 then .nan else if 0 < b then .posInf else .negInf
  | .negInf, .finite b => if b = 0 then .nan else if 0 < b then .negInf else .posInf
  | .posInf, .posInf => .posInf
  | .posInf, .negInf => .negInf
  | .negInf, .posInf => .negInf
  | .negInf, .negInf => .posInf
  | _, _ => .nan

/-- Exact arithmetic on samples that may be infinite or NaN.  The conversion to
`uint8` of a finite value is that of `exactOps`; Go leaves the result for an
infinity or a NaN to the implementation, and `special` stands for it. -/
def sampleOps (special : Sample → Fin 256) : FloatOps Sample :=
  { lt := Sample.lt
    sub := Sample.sub
    div := Sample.div
    mul := Sample.mul
    maxUint8 := .finite 255
    toUint8 := fun v =>
      match v with
      | .finite q => exactOps.toUint8 q
      | s => special s }

/-- The normalised value of a sample is a number of `[0, 255]`, and its conversion
to `uint8` is the integer part of that number. -/
def NormalizedInRange (special : Sample → Fin 256) (min max v : Sample) : Prop :=
  ∃ q : ℚ, normalize (sampleOps special) min max v = .finite q ∧ 0 ≤ q ∧ q ≤ 255 ∧
    (((sampleOps special).toUint8 (normalize (sampleOps special) min max v)).val : Int) = ⌊q⌋

/-- The magnitude of the finite `float32` with exponent field `e` and fraction
field `m`: `m * 2^-149` for a subnormal (`e = 0`), `(2^23 + m) * 2^(e - 150)`
otherwise. -/
def f32Magnitude (e m : Nat) : ℚ :=
  if e = 0 then (m : ℚ) / 2 ^ 149 else ((2 ^ 23 + m : Nat) : ℚ) * 2 ^ e / 2 ^ 150

/-- The exact value of the `float32` with pattern `b`: sign bit, 8 bits of
exponent, 23 bits of fraction. -/
def f32Value (b : Nat) : Sample :=
  if b / 2 ^ 23 % 256 = 255 then
    if b % 2 ^ 23 = 0 then (if b / 2 ^ 31 % 2 = 1 then .negInf else .posInf) else .nan
  else if b / 2 ^ 31 % 2 = 1 then .finite (-f32Magnitude (b / 2 ^ 23 % 256) (b % 2 ^ 23))
  else .finite (f32Magnitude (b / 2 ^ 23 % 256) (b % 2 ^ 23))

/-! ## Helper lemmas on the row-major index -/

theorem mem_validPermutations {p : Int} :
    p ∈ validPermutations ↔
      p = 123 ∨ p = 132 ∨ p = 213 ∨ p = 231 ∨ p = 312 ∨ p = 321 := by
  simp [validPermutations]

theorem flat_lt {w h dp x y d : Nat} (hx : x < w) (hy : y < h) (hd : d < dp) :
    d * w * h + y * w + x < w * h * dp := by
  have h1 : y * w + x < w * h := by
    calc y * w + x < y * w + w := by omega
      _ = (y + 1) * w := by ring
      _ ≤ h * w := Nat.mul_le_mul_right w hy
      _ = w * h := Nat.mul_comm h w
  calc d * w * h + y * w + x = d * (w * h) + (y * w + x) := by ring
    _ < d * (w * h) + w * h := by omega
    _ = (d + 1) * (w * h) := by ring
    _ ≤ dp * (w * h) := Nat.mul_le_mul_right (w * h) hd
    _ = w * h * dp := Nat.mul_comm dp (w * h)

theorem flat_decode {w h x y d i : Nat} (hx : x < w) (hy : y < h)
    (hi : d * w * h + y * w + x = i) :
    x = i % w ∧ y = i / w % h ∧ d = i / w / h := by
  have hw : 0 < w := by omega
  have e : i = x + (y + d * h) * w := by rw [← hi]; ring
  have hq : i / w = y + d * h := by
    rw [e, Nat.add_mul_div_right _ _ hw, Nat.div_eq_of_lt hx, Nat.zero_add]
  refine ⟨?_, ?_, ?_⟩
  · rw [e, Nat.add_mul_mod_self_right, Nat.mod_eq_of_lt hx]
  · rw [hq, Nat.add_mul_mod_self_right, Nat.mod_eq_of_lt hy]
  · rw [hq, Nat.add_mul_div_right _ _ (by omega : 0 < h), Nat.div_eq_of_lt hy, Nat.zero_add]

theorem flat_encode {w h dp i : Nat} (hi : i < w * h * dp) :
    i % w < w ∧ i / w % h < h ∧ i / w / h < dp ∧
      (i / w / h) * w * h + (i / w % h) * w + i % w = i := by
  have hw : 0 < w := by
    rcases Nat.eq_zero_or_pos w with h0 | h0
    · subst h0; simp at hi
    · exact h0
  have hh : 0 < h := by
    rcases Nat.eq_zero_or_pos h with h0 | h0
    · subst h0; simp at hi
    · exact h0
  refine ⟨Nat.mod_lt _ hw, Nat.mod_lt _ hh, ?_, ?_⟩
  · rw [Nat.div_div_eq_div_mul]
    exact Nat.div_lt_of_lt_mul (by rw [Nat.mul_comm] at hi; rw [Nat.mul_comm]; linarith)
  · have h1 := Nat.div_add_mod i w
    have h2 := Nat.div_add_mod (i / w) h
    calc (i / w / h) * w * h + (i / w % h) * w + i % w
        = w * (h * (i / w / h) + i / w % h) + i % w := by ring
      _ = w * (i / w) + i % w := by rw [h2]
      _ = i := h1

theorem flat_decode_int {w h a b c i : Nat} (ha : a < w) (hb : b < h)
    (he : (c : Int) * w * h + b * w + a = (i : Int)) :
    a = i % w ∧ b = i / w % h ∧ c = i / w / h :=
  flat_decode ha hb (by exact_mod_cast he)

theorem flat_encode_int {w h dp i : Nat} (hi : i < w * h * dp) :
    i % w < w ∧ i / w % h < h ∧ i / w / h < dp ∧
      ((i / w / h : Nat) : Int) * w * h + ((i / w % h : Nat) : Int) * w + ((i % w : Nat) : Int)
        = (i : Int) := by
  obtain ⟨h1, h2, h3, h4⟩ := flat_encode hi
  exact ⟨h1, h2, h3, by exact_mod_cast h4⟩

theorem flat_lt_int {w h dp x y d : Nat} (hx : x < w) (hy : y < h) (hd : d < dp) :
    ∃ i : Nat, (d : Int) * w * h + y * w + x = (i : Int) ∧ i < w * h * dp :=
  ⟨d * w * h + y * w + x, by push_cast; ring, flat_lt hx hy hd⟩

/-! ## The permutation claims -/

/-- C1. For each of the six permutation codes and all natural dimensions, the
index at which `saveImagesFromArray` reads `packedData`, as a map on the
coordinates `(d, x, y)` with `d < length3`, `x < length1`, `y < length2`, is a
bijection onto `[0, width*height*depth)`: every index is in range, and every
index below `width*height*depth` comes from exactly one coordinate. -/
theorem gatherIndex_bijective (permutation : Int)
    (hp : permutation ∈ validPermutations) (width height depth : Nat) :
    ∃ length1 length2 length3 : Nat,
      permutedLengths width height depth permutation
        = some ((length1 : Int), (length2 : Int), (length3 : Int)) ∧
      (∀ d x y : Nat, d < length3 → x < length1 → y < length2 →
        ∃ i : Nat, gatherIndex width height permutation x y d = some (i : Int) ∧
          i < width * height * depth) ∧
      (∀ i : Nat, i < width * height * depth →
        ∃! t : Nat × Nat × Nat, (t.1 < length3 ∧ t.2.1 < length1 ∧ t.2.2 < length2) ∧
          gatherIndex width height permutation t.2.1 t.2.2 t.1 = some (i : Int)) := by
  rcases mem_validPermutations.mp hp with rfl | rfl | rfl | rfl | rfl | rfl
  · refine ⟨width, height, depth, by simp [permutedLengths], ?_, ?_⟩
    · intro d x y hd hx hy
      simpa [gatherIndex] using flat_lt_int hx hy hd
    · intro i hi
      obtain ⟨h1, h2, h3, h4⟩ := flat_encode_int hi
      refine ⟨(i / width / height, i % width, i / width % height), ⟨⟨h3, h1, h2⟩, ?_⟩, ?_⟩
      · simpa [gatherIndex] using h4
      · rintro ⟨d, x, y⟩ ⟨⟨hd, hx, hy⟩, he⟩
        simp only [gatherIndex, if_true, Option.some.injEq] at he hd hx hy
        obtain ⟨e1, e2, e3⟩ := flat_decode_int hx hy he
        rw [e1, e2, e3]
  · refine ⟨width, depth, height, by simp [permutedLengths], ?_, ?_⟩
    · intro d x y hd hx hy
      simpa [gatherIndex] using flat_lt_int hx hd hy
    · intro i hi
      obtain ⟨h1, h2, h3, h4⟩ := flat_encode_int hi
      refine ⟨(i / width % height, i % width, i / width / height), ⟨⟨h2, h1, h3⟩, ?_⟩, ?_⟩
      · simpa [gatherIndex] using h4
      · rintro ⟨d, x, y⟩ ⟨⟨hd, hx, hy⟩, he⟩
        simp [gatherIndex] at he hd hx hy
        obtain ⟨e1, e2, e3⟩ := flat_decode_int hx hd he
        rw [e1, e2, e3]
  · refine ⟨height, width, depth, by simp [permutedLengths], ?_, ?_⟩
    · intro d x y hd hx hy
      simpa [gatherIndex] using flat_lt_int hy hx hd
    · intro i hi
      obtain ⟨h1, h2, h3, h4⟩ := flat_encode_int hi
      refine ⟨(i / width / height, i / width % height, i % width), ⟨⟨h3, h2, h1⟩, ?_⟩, ?_⟩
      · simpa [gatherIndex] using h4
      · rintro ⟨d, x, y⟩ ⟨⟨hd, hx, hy⟩, he⟩
        simp [gatherIndex] at he hd hx hy
        obtain ⟨e1, e2, e3⟩ := flat_decode_int hy hx he
        rw [e1, e2, e3]
  · refine ⟨height, depth, width, by simp [permutedLengths], ?_, ?_⟩
    · intro d x y hd hx hy
      simpa [gatherIndex] using flat_lt_int hd hx hy
    · intro i hi
      obtain ⟨h1, h2, h3, h4⟩ := flat_encode_int hi
      refine ⟨(i % width, i / width % height, i / width / height), ⟨⟨h1, h2, h3⟩, ?_⟩, ?_⟩
      · simpa [gatherIndex] using h4
      · rintro ⟨d, x, y⟩ ⟨⟨hd, hx, hy⟩, he⟩
        simp [gatherIndex] at he hd hx hy
        obtain ⟨e1, e2, e3⟩ := flat_decode_int hd hx he
        rw [e1, e2, e3]
  · refine ⟨depth, width, height, by simp [permutedLengths], ?_, ?_⟩
    · intro d x y hd hx hy
      simpa [gatherIndex] using flat_lt_int hy hd hx
    · intro i hi
      obtain ⟨h1, h2, h3, h4⟩ := flat_encode_int hi
      refine ⟨(i / width % height, i / width / height, i % width), ⟨⟨h2, h3, h1⟩, ?_⟩, ?_⟩
      · simpa [gatherIndex] using h4
      · rintro ⟨d, x, y⟩ ⟨⟨hd, hx, hy⟩, he⟩
        simp [gatherIndex] at he hd hx hy
        obtain ⟨e1, e2, e3⟩ := flat_decode_int hy hd he
        rw [e1, e2, e3]
  · refine ⟨depth, height, width, by simp [permutedLengths], ?_, ?_⟩
    · intro d x y hd hx hy
      simpa [gatherIndex] using flat_lt_int hd hy hx
    · intro i hi
      obtain ⟨h1, h2, h3, h4⟩ := flat_encode_int hi
      refine ⟨(i % width, i / width / height, i / width % height), ⟨⟨h1, h3, h2⟩, ?_⟩, ?_⟩
      · simpa [gatherIndex] using h4
      · rintro ⟨d, x, y⟩ ⟨⟨hd, hx, hy⟩, he⟩
        simp [gatherIndex] at he hd hx hy
        obtain ⟨e1, e2, e3⟩ := flat_decode_int hd hy he
        rw [e1, e2, e3]

/-- The bijection of C1 at the code 312 with dimensions 2, 3, 4. -/
theorem gatherIndex_bijective_witness :
    (312 : Int) ∈ validPermutations ∧
    ∃ length1 length2 length3 : Nat,
      permutedLengths (2 : Nat) (3 : Nat) (4 : Nat) 312
        = some ((length1 : Int), (length2 : Int), (length3 : Int)) ∧
      (∀ d x y : Nat, d < length3 → x < length1 → y < length2 →
        ∃ i : Nat, gatherIndex (2 : Nat) (3 : Nat) 312 x y d = some (i : Int) ∧
          i < 2 * 3 * 4) ∧
      (∀ i : Nat, i < 2 * 3 * 4 →
        ∃! t : Nat × Nat × Nat, (t.1 < length3 ∧ t.2.1 < length1 ∧ t.2.2 < length2) ∧
          gatherIndex (2 : Nat) (3 : Nat) 312 t.2.1 t.2.2 t.1 = some (i : Int)) :=
  ⟨by decide, gatherIndex_bijective 312 (by decide) 2 3 4⟩

/-- C2. For each of the six permutation codes, with digits `(a, b, c)`, the index
read by `saveImagesFromArray` at the raster coordinate `(x, y, d)` is the
canonical flat index `d_c*width*height + y_c*width + x_c` of the triple that
puts `x` at axis `a`, `y` at axis `b` and `d` at axis `c`. -/
theorem gatherIndex_eq_canonicalIndex (permutation : Int)
    (hp : permutation ∈ validPermutations) (width height : Int) (x y d : Nat) :
    gatherIndex width height permutation x y d
      = some (canonicalIndex width height (canonicalTriple permutation x y d)) := by
  rcases mem_validPermutations.mp hp with rfl | rfl | rfl | rfl | rfl | rfl <;>
    simp [gatherIndex, canonicalIndex, canonicalTriple, permDigits, assignAxis]


/-- The equation of C2 at the code 231 and the coordinate `(1, 2, 3)`. -/
theorem gatherIndex_eq_canonicalIndex_witness :
    (231 : Int) ∈ validPermutations ∧
      gatherIndex 4 5 231 1 2 3 = some (canonicalIndex 4 5 (canonicalTriple 231 1 2 3)) :=
  ⟨by decide, gatherIndex_eq_canonicalIndex 231 (by decide) 4 5 1 2 3⟩


/-- C3. For every valid permutation code with digits `(a, b, c)`, the lengths
assigned by `saveImagesFromArray` are the lengths of the canonical axes `a`, `b`
and `c`; they are a permutation of `(width, height, depth)` and their product is
`width*height*depth`. -/
theorem permutedLengths_spec (permutation : Int)
    (hp : permutation ∈ validPermutations) (width height depth : Int) :
    ∃ length1 length2 length3 : Int,
      permutedLengths width height depth permutation = some (length1, length2, length3) ∧
      length1 = axisLength width height depth (permDigits permutation).1 ∧
      length2 = axisLength width height depth (permDigits permutation).2.1 ∧
      length3 = axisLength width height depth (permDigits permutation).2.2 ∧
      List.Perm [length1, length2, length3] [width, height, depth] ∧
      length1 * length2 * length3 = width * height * depth := by
  rcases mem_validPermutations.mp hp with rfl | rfl | rfl | rfl | rfl | rfl
  · exact ⟨width, height, depth, by simp [permutedLengths], by simp [axisLength, permDigits],
      by simp [axisLength, permDigits], by simp [axisLength, permDigits], List.Perm.refl _, by ring⟩
  · exact ⟨width, depth, height, by simp [permutedLengths], by simp [axisLength, permDigits],
      by simp [axisLength, permDigits], by simp [axisLength, permDigits],
      (List.Perm.swap _ _ _).cons _, by ring⟩
  · exact ⟨height, width, depth, by simp [permutedLengths], by simp [axisLength, permDigits],
      by simp [axisLength, permDigits], by simp [axisLength, permDigits],
      List.Perm.swap _ _ _, by ring⟩
  · exact ⟨height, depth, width, by simp [permutedLengths], by simp [axisLength, permDigits],
      by simp [axisLength, permDigits], by simp [axisLength, permDigits],
      ((List.Perm.swap _ _ _).cons _).trans (List.Perm.swap _ _ _), by ring⟩
  · exact ⟨depth, width, height, by simp [permutedLengths], by simp [axisLength, permDigits],
      by simp [axisLength, permDigits], by simp [axisLength, permDigits],
      (List.Perm.swap _ _ _).trans ((List.Perm.swap _ _ _).cons _), by ring⟩
  · exact ⟨depth, height, width, by simp [permutedLengths], by simp [axisLength, permDigits],
      by simp [axisLength, permDigits], by simp [axisLength, permDigits],
      by
        have h1 : List.Perm [depth, height, width] [height, depth, width] := List.Perm.swap _ _ _
        have h2 : List.Perm [height, depth, width] [height, width, depth] :=
          (List.Perm.swap _ _ _).cons _
        have h3 : List.Perm [height, width, depth] [width, height, depth] := List.Perm.swap _ _ _
        exact h1.trans (h2.trans h3), by ring⟩

/-- The lengths of C3 at the code 312 with dimensions 2, 3, 4. -/
theorem permutedLengths_spec_witness :
    (312 : Int) ∈ validPermutations ∧
    ∃ length1 length2 length3 : Int,
      permutedLengths 2 3 4 312 = some (length1, length2, length3) ∧
      length1 = axisLength 2 3 4 (permDigits 312).1 ∧
      length2 = axisLength 2 3 4 (permDigits 312).2.1 ∧
      length3 = axisLength 2 3 4 (permDigits 312).2.2 ∧
      List.Perm [length1, length2, length3] [2, 3, 4] ∧
      length1 * length2 * length3 = 2 * 3 * 4 :=
  ⟨by decide, permutedLengths_spec 312 (by decide) 2 3 4⟩

/-! ## `getMinAndMax` -/
theorem f32Lt_eq_true_iff {a b : Nat} :
    f32Lt a b = true ↔ f32IsNaN a = false ∧ f32IsNaN b = false ∧ f32Key a < f32Key b := by
  simp [f32Lt, and_assoc]

theorem f32Le_eq_true_iff {a b : Nat} :
    f32Le a b = true ↔ f32IsNaN a = false ∧ f32IsNaN b = false ∧ f32Key a ≤ f32Key b := by
  simp [f32Le, and_assoc]

theorem minMaxStep_fst {F : Type} (lt : F → F → Bool) (acc : F × F) (e : F) :
    (minMaxStep lt acc e).1 = if lt e acc.1 then e else acc.1 := rfl

theorem minMaxStep_snd {F : Type} (lt : F → F → Bool) (acc : F × F) (e : F) :
    (minMaxStep lt acc e).2 = if lt acc.2 e then e else acc.2 := rfl

theorem getMinAndMax_cons {F : Type} (lt : F → F → Bool) (first : F) (rest : List F) :
    getMinAndMax lt (first :: rest)
      = some ((first :: rest).foldl (minMaxStep lt) (first, first)) := by
  simp only [getMinAndMax, List.getElem?_cons_zero]

theorem getMinAndMax_nil {F : Type} (lt : F → F → Bool) :
    getMinAndMax lt ([] : List F) = none := rfl

/-- The loop of `getMinAndMax` never turns a non-NaN bound into a NaN one. -/
theorem foldl_minMaxStep_notNaN (l : List Nat) (acc : Nat × Nat)
    (hmn : f32IsNaN acc.1 = false) (hmx : f32IsNaN acc.2 = false) :
    f32IsNaN (l.foldl (minMaxStep f32Lt) acc).1 = false ∧
      f32IsNaN (l.foldl (minMaxStep f32Lt) acc).2 = false := by
  induction l generalizing acc with
  | nil => exact ⟨hmn, hmx⟩
  | cons e l ih =>
    rw [List.foldl_cons]
    apply ih
    · rw [minMaxStep_fst]
      split
      · next h => exact (f32Lt_eq_true_iff.mp h).1
      · exact hmn
    · rw [minMaxStep_snd]
      split
      · next h => exact (f32Lt_eq_true_iff.mp h).2.1
      · exact hmx

/-- The loop of `getMinAndMax` never replaces a NaN bound. -/
theorem foldl_minMaxStep_nan (l : List Nat) (acc : Nat × Nat)
    (hmn : f32IsNaN acc.1 = true) (hmx : f32IsNaN acc.2 = true) :
    l.foldl (minMaxStep f32Lt) acc = acc := by
  induction l generalizing acc with
  | nil => rfl
  | cons e l ih =>
    rw [List.foldl_cons]
    have h1 : f32Lt e acc.1 = false := by simp [f32Lt, hmn]
    have h2 : f32Lt acc.2 e = false := by simp [f32Lt, hmx]
    have hs : minMaxStep f32Lt acc e = acc := by
      apply Prod.ext
      · rw [minMaxStep_fst, h1]; rfl
      · rw [minMaxStep_snd, h2]; rfl
    rw [hs]
    exact ih acc hmn hmx

/-- The invariant of the loop of `getMinAndMax` on samples without NaN. -/
theorem foldl_minMaxStep_bounds (l : List Nat) (acc : Nat × Nat)
    (hl : ∀ s ∈ l, f32IsNaN s = false)
    (hmn : f32IsNaN acc.1 = false) (hmx : f32IsNaN acc.2 = false) :
    f32Key (l.foldl (minMaxStep f32Lt) acc).1 ≤ f32Key acc.1 ∧
    f32Key acc.2 ≤ f32Key (l.foldl (minMaxStep f32Lt) acc).2 ∧
    (∀ s ∈ l, f32Key (l.foldl (minMaxStep f32Lt) acc).1 ≤ f32Key s ∧
      f32Key s ≤ f32Key (l.foldl (minMaxStep f32Lt) acc).2) ∧
    ((l.foldl (minMaxStep f32Lt) acc).1 = acc.1 ∨ (l.foldl (minMaxStep f32Lt) acc).1 ∈ l) ∧
    ((l.foldl (minMaxStep f32Lt) acc).2 = acc.2 ∨ (l.foldl (minMaxStep f32Lt) acc).2 ∈ l) := by
  induction l generalizing acc with
  | nil => simp
  | cons e l ih =>
    have he : f32IsNaN e = false := hl e (List.mem_cons_self _ _)
    have hl' : ∀ s ∈ l, f32IsNaN s = false := fun s hs => hl s (List.mem_cons_of_mem _ hs)
    have k1 : f32Key (minMaxStep f32Lt acc e).1 ≤ f32Key acc.1 ∧
        f32Key (minMaxStep f32Lt acc e).1 ≤ f32Key e ∧
        f32IsNaN (minMaxStep f32Lt acc e).1 = false ∧
        ((minMaxStep f32Lt acc e).1 = acc.1 ∨ (minMaxStep f32Lt acc e).1 = e) := by
      rw [minMaxStep_fst]
      by_cases h : f32Lt e acc.1 = true
      · rw [if_pos h]
        exact ⟨le_of_lt (f32Lt_eq_true_iff.mp h).2.2, le_refl _, he, Or.inr rfl⟩
      · rw [if_neg h]
        have : ¬ f32Key e < f32Key acc.1 := fun hlt => h (f32Lt_eq_true_iff.mpr ⟨he, hmn, hlt⟩)
        exact ⟨le_refl _, not_lt.mp this, hmn, Or.inl rfl⟩
    have k2 : f32Key acc.2 ≤ f32Key (minMaxStep f32Lt acc e).2 ∧
        f32Key e ≤ f32Key (minMaxStep f32Lt acc e).2 ∧
        f32IsNaN (minMaxStep f32Lt acc e).2 = false ∧
        ((minMaxStep f32Lt acc e).2 = acc.2 ∨ (minMaxStep f32Lt acc e).2 = e) := by
      rw [minMaxStep_snd]
      by_cases h : f32Lt acc.2 e = true
      · rw [if_pos h]
        exact ⟨le_of_lt (f32Lt_eq_true_iff.mp h).2.2, le_refl _, he, Or.inr rfl⟩
      · rw [if_neg h]
        have : ¬ f32Key acc.2 < f32Key e := fun hlt => h (f32Lt_eq_true_iff.mpr ⟨hmx, he, hlt⟩)
        exact ⟨le_refl _, not_lt.mp this, hmx, Or.inl rfl⟩
    obtain ⟨a1, a2, a3, a4⟩ := k1
    obtain ⟨b1, b2, b3, b4⟩ := k2
    obtain ⟨i1, i2, i3, i4, i5⟩ := ih (minMaxStep f32Lt acc e) hl' a3 b3
    rw [List.foldl_cons]
    refine ⟨le_trans i1 a1, le_trans b1 i2, ?_, ?_, ?_⟩
    · intro s hs
      rcases List.mem_cons.mp hs with rfl | hs
      · exact ⟨le_trans i1 a2, le_trans b2 i2⟩
      · exact i3 s hs
    · rcases i4 with h | h
      · rcases a4 with h' | h'
        · exact Or.inl (h.trans h')
        · exact Or.inr (by rw [h, h']; exact List.mem_cons_self _ _)
      · exact Or.inr (List.mem_cons_of_mem _ h)
    · rcases i5 with h | h
      · rcases b4 with h' | h'
        · exact Or.inl (h.trans h')
        · exact Or.inr (by rw [h, h']; exact List.mem_cons_self _ _)
      · exact Or.inr (List.mem_cons_of_mem _ h)

/-- C6. For every non-empty volume without NaN, `getMinAndMax` returns a pair
`(min, max)` with `min <= s <= max` for every sample `s`, and `min` and `max` are
both samples of the volume. -/
theorem getMinAndMax_bounds (packedData : List Nat) (hne : packedData ≠ [])
    (hnan : ∀ s ∈ packedData, f32IsNaN s = false) :
    ∃ min max : Nat, getMinAndMax f32Lt packedData = some (min, max) ∧
      (∀ s ∈ packedData, f32Le min s = true ∧ f32Le s max = true) ∧
      min ∈ packedData ∧ max ∈ packedData := by
  cases packedData with
  | nil => exact absurd rfl hne
  | cons first rest =>
    have hf : f32IsNaN first = false := hnan first (List.mem_cons_self _ _)
    obtain ⟨-, -, i3, i4, i5⟩ := foldl_minMaxStep_bounds (first :: rest) (first, first) hnan hf hf
    obtain ⟨n1, n2⟩ := foldl_minMaxStep_notNaN (first :: rest) (first, first) hf hf
    have hr := getMinAndMax_cons f32Lt first rest
    generalize (first :: rest).foldl (minMaxStep f32Lt) (first, first) = r at hr i3 i4 i5 n1 n2
    refine ⟨r.1, r.2, hr, ?_, ?_, ?_⟩
    · intro s hs
      exact ⟨f32Le_eq_true_iff.mpr ⟨n1, hnan s hs, (i3 s hs).1⟩,
        f32Le_eq_true_iff.mpr ⟨hnan s hs, n2, (i3 s hs).2⟩⟩
    · rcases i4 with h | h
      · rw [h]; exact List.mem_cons_self _ _
      · exact h
    · rcases i5 with h | h
      · rw [h]; exact List.mem_cons_self _ _
      · exact h

/-- The bounds of C6 on the volume `[1.0, -2.0, 3.0]`. -/
theorem getMinAndMax_bounds_witness :
    ([0x3F800000, 0xC0000000, 0x40400000] : List Nat) ≠ [] ∧
    (∀ s ∈ ([0x3F800000, 0xC0000000, 0x40400000] : List Nat), f32IsNaN s = false) ∧
    ∃ min max : Nat,
      getMinAndMax f32Lt [0x3F800000, 0xC0000000, 0x40400000] = some (min, max) ∧
      (∀ s ∈ ([0x3F800000, 0xC0000000, 0x40400000] : List Nat),
        f32Le min s = true ∧ f32Le s max = true) ∧
      min ∈ ([0x3F800000, 0xC0000000, 0x40400000] : List Nat) ∧
      max ∈ ([0x3F800000, 0xC0000000, 0x40400000] : List Nat) :=
  ⟨by decide, by decide,
    getMinAndMax_bounds [0x3F800000, 0xC0000000, 0x40400000] (by decide) (by decide)⟩


/-- C7. The function `getMinAndMax` panics (its read of index 0 is out of bounds)
exactly when the volume is empty; on every non-empty volume it returns a pair. -/
theorem getMinAndMax_panics_iff_empty {F : Type} (lt : F → F → Bool) (packedData : List F) :
    (getMinAndMax lt packedData = none ↔ packedData = []) ∧
      (∀ first : F, ∀ rest : List F, ∃ min max : F,
        getMinAndMax lt (first :: rest) = some (min, max)) := by
  refine ⟨?_, fun first rest => ⟨_, _, getMinAndMax_cons lt first rest⟩⟩
  cases packedData with
  | nil => simp [getMinAndMax_nil]
  | cons first rest => simp [getMinAndMax_cons]

/-- C8, as stated, fails on the two-sample volume `[NaN, 1.0]`: the NaN at index 0
is returned both as minimum and as maximum. -/
theorem getMinAndMax_nan_first_counterexample :
    2 ≤ ([0x7FC00000, 0x3F800000] : List Nat).length ∧
      getMinAndMax f32Lt [0x7FC00000, 0x3F800000] = some (0x7FC00000, 0x7FC00000) ∧
      f32IsNaN 0x7FC00000 = true ∧ f32IsNaN 0x3F800000 = false := by
  decide

/-- C8, amended. On every non-empty volume, under IEEE-754 comparisons: when the
first sample is not a NaN, neither component of the pair returned by
`getMinAndMax` is a NaN; when the first sample is a NaN, it is returned both as
minimum and as maximum, whatever the other samples are. -/
theorem getMinAndMax_nan_iff_first (first : Nat) (rest : List Nat) :
    ∃ min max : Nat, getMinAndMax f32Lt (first :: rest) = some (min, max) ∧
      (f32IsNaN first = false → f32IsNaN min = false ∧ f32IsNaN max = false) ∧
      (f32IsNaN first = true → min = first ∧ max = first) := by
  have hr := getMinAndMax_cons f32Lt first rest
  refine ⟨((first :: rest).foldl (minMaxStep f32Lt) (first, first)).1,
    ((first :: rest).foldl (minMaxStep f32Lt) (first, first)).2, hr, ?_, ?_⟩
  · intro hf
    exact foldl_minMaxStep_notNaN (first :: rest) (first, first) hf hf
  · intro hf
    rw [foldl_minMaxStep_nan (first :: rest) (first, first) hf hf]
    exact ⟨rfl, rfl⟩

/-- The statement of C8, amended, on the volume `[1.0, NaN, 2.0]`. -/
theorem getMinAndMax_nan_iff_first_witness :
    ∃ min max : Nat, getMinAndMax f32Lt [0x3F800000, 0x7FC00000, 0x40000000] = some (min, max) ∧
      (f32IsNaN 0x3F800000 = false → f32IsNaN min = false ∧ f32IsNaN max = false) ∧
      (f32IsNaN 0x3F800000 = true → min = 0x3F800000 ∧ max = 0x3F800000) :=
  getMinAndMax_nan_iff_first 0x3F800000 [0x7FC00000, 0x40000000]

/-! ## `readFileToMemory` -/
theorem or_shift_eq_add (b0 b1 b2 b3 : Fin 256) :
    b0.val ||| b1.val <<< 8 ||| b2.val <<< 16 ||| b3.val <<< 24
      = b0.val + 256 * b1.val + 65536 * b2.val + 16777216 * b3.val := by
  have h0 := b0.isLt
  have h1 := b1.isLt
  have h2 := b2.isLt
  have e1 : b0.val ||| b1.val <<< 8 = b0.val + 256 * b1.val := by
    rw [Nat.shiftLeft_eq, Nat.lor_comm, Nat.mul_comm,
      ← Nat.mul_add_lt_is_or (by omega : b0.val < 2 ^ 8)]
    omega
  have e2 : (b0.val + 256 * b1.val) ||| b2.val <<< 16
      = b0.val + 256 * b1.val + 65536 * b2.val := by
    rw [Nat.shiftLeft_eq, Nat.lor_comm, Nat.mul_comm,
      ← Nat.mul_add_lt_is_or (by omega : b0.val + 256 * b1.val < 2 ^ 16)]
    omega
  have e3 : (b0.val + 256 * b1.val + 65536 * b2.val) ||| b3.val <<< 24
      = b0.val + 256 * b1.val + 65536 * b2.val + 16777216 * b3.val := by
    rw [Nat.shiftLeft_eq, Nat.lor_comm, Nat.mul_comm,
      ← Nat.mul_add_lt_is_or (by omega : b0.val + 256 * b1.val + 65536 * b2.val < 2 ^ 24)]
    omega
  rw [e1, e2, e3]

theorem littleEndianUint32_four (b0 b1 b2 b3 : Fin 256) :
    littleEndianUint32 [b0, b1, b2, b3]
      = some (b0.val + 256 * b1.val + 65536 * b2.val + 16777216 * b3.val) := by
  simp only [littleEndianUint32]
  simp
  exact or_shift_eq_add b0 b1 b2 b3

theorem sliceFour_inside (rawData : ByteSlice) (i : Nat) (hi : i + 4 ≤ rawData.data.length) :
    ∃ b0 b1 b2 b3 : Fin 256,
      rawData.data[i]? = some b0 ∧ rawData.data[i + 1]? = some b1 ∧
      rawData.data[i + 2]? = some b2 ∧ rawData.data[i + 3]? = some b3 ∧
      sliceFour rawData i = some [b0, b1, b2, b3] := by
  have l0 : i < rawData.data.length := by omega
  have l1 : i + 1 < rawData.data.length := by omega
  have l2 : i + 2 < rawData.data.length := by omega
  have l3 : i + 3 < rawData.data.length := by omega
  refine ⟨rawData.data[i], rawData.data[i + 1], rawData.data[i + 2], rawData.data[i + 3],
    List.getElem?_eq_getElem l0, List.getElem?_eq_getElem l1, List.getElem?_eq_getElem l2,
    List.getElem?_eq_getElem l3, ?_⟩
  unfold sliceFour
  rw [if_pos (by omega)]
  congr 1
  apply List.ext_getElem?
  intro k
  rw [List.getElem?_take]
  by_cases hk : k < 4
  · rw [if_pos hk, List.getElem?_drop, List.getElem?_append_left (by omega)]
    interval_cases k <;> simp [List.getElem?_eq_getElem, l0, l1, l2, l3]
  · rw [if_neg hk]
    simp
    omega

/-- The loop body on a complete group of four bytes, without inversion or logarithm. -/
theorem decodeSample_plain (logStep : Nat → Nat) (rawData : ByteSlice) (acc : List Nat)
    (i : Nat) (hi : i + 4 ≤ rawData.data.length) :
    ∃ b0 b1 b2 b3 : Fin 256,
      rawData.data[i]? = some b0 ∧ rawData.data[i + 1]? = some b1 ∧
      rawData.data[i + 2]? = some b2 ∧ rawData.data[i + 3]? = some b3 ∧
      decodeSample logStep rawData false 0 acc i
        = .ok (acc ++ [b0.val + 256 * b1.val + 65536 * b2.val + 16777216 * b3.val]) := by
  obtain ⟨b0, b1, b2, b3, e0, e1, e2, e3, es⟩ := sliceFour_inside rawData i hi
  refine ⟨b0, b1, b2, b3, e0, e1, e2, e3, ?_⟩
  simp [decodeSample, es, littleEndianUint32_four]

theorem loopOffsets_of_dvd {n : Nat} (h : n % 4 = 0) :
    loopOffsets n = (List.range (n / 4)).map (fun k => 4 * k) := by
  unfold loopOffsets
  congr 2
  omega

/-- The decoding loop over the first `m` complete groups. -/
theorem foldlM_decodeSample_plain (logStep : Nat → Nat) (rawData : ByteSlice) (m : Nat)
    (hm : 4 * m ≤ rawData.data.length) :
    ∃ samples : List Nat,
      ((List.range m).map (fun k => 4 * k)).foldlM
        (decodeSample logStep rawData false 0) [] = .ok samples ∧
      samples.length = m ∧
      ∀ i : Nat, i < m → ∃ b0 b1 b2 b3 : Fin 256,
        rawData.data[4 * i]? = some b0 ∧ rawData.data[4 * i + 1]? = some b1 ∧
        rawData.data[4 * i + 2]? = some b2 ∧ rawData.data[4 * i + 3]? = some b3 ∧
        samples[i]? = some (b0.val + 256 * b1.val + 65536 * b2.val + 16777216 * b3.val) := by
  induction m with
  | zero => exact ⟨[], rfl, rfl, fun i hi => absurd hi (Nat.not_lt_zero i)⟩
  | succ m ih =>
    obtain ⟨samples, hs, hlen, hget⟩ := ih (by omega)
    obtain ⟨b0, b1, b2, b3, e0, e1, e2, e3, ed⟩ :=
      decodeSample_plain logStep rawData samples (4 * m) (by omega)
    refine ⟨samples ++ [b0.val + 256 * b1.val + 65536 * b2.val + 16777216 * b3.val], ?_, ?_, ?_⟩
    · rw [List.range_succ, List.map_append, List.foldlM_append, hs]
      simp only [List.map_cons, List.map_nil, List.foldlM_cons, List.foldlM_nil]
      show (decodeSample logStep rawData false 0 samples (4 * m) >>= pure) = _
      rw [ed]
      rfl
    · simp [hlen]
    · intro i hi
      rcases Nat.lt_succ_iff_lt_or_eq.mp hi with hlt | rfl
      · obtain ⟨c0, c1, c2, c3, f0, f1, f2, f3, fs⟩ := hget i hlt
        refine ⟨c0, c1, c2, c3, f0, f1, f2, f3, ?_⟩
        rw [List.getElem?_append_left (by omega)]
        exact fs
      · refine ⟨b0, b1, b2, b3, e0, e1, e2, e3, ?_⟩
        rw [List.getElem?_append_right (by omega)]
        simp [hlen]

/-- C10. For every byte stream whose length is a multiple of 4, whatever lies
behind it in the backing array, `readFileToMemory` with `invert = false` and
`numLogs = 0` returns `len/4` samples, and sample `i` has the bit pattern
`b[4i] + 256*b[4i+1] + 65536*b[4i+2] + 16777216*b[4i+3]`. -/
theorem readFileToMemory_plain (logStep : Nat → Nat) (rawData : ByteSlice)
    (h4 : rawData.data.length % 4 = 0) :
    ∃ samples : List Nat,
      readFileToMemory logStep (.ok rawData) false 0 = .ok samples ∧
      samples.length = rawData.data.length / 4 ∧
      ∀ i : Nat, i < rawData.data.length / 4 → ∃ b0 b1 b2 b3 : Fin 256,
        rawData.data[4 * i]? = some b0 ∧ rawData.data[4 * i + 1]? = some b1 ∧
        rawData.data[4 * i + 2]? = some b2 ∧ rawData.data[4 * i + 3]? = some b3 ∧
        samples[i]? = some (b0.val + 256 * b1.val + 65536 * b2.val + 16777216 * b3.val) := by
  obtain ⟨samples, hs, hlen, hget⟩ :=
    foldlM_decodeSample_plain logStep rawData (rawData.data.length / 4) (by omega)
  refine ⟨samples, ?_, hlen, hget⟩
  simp only [readFileToMemory]
  rw [loopOffsets_of_dvd h4]
  exact hs

/-- The statement of C10 on the eight bytes of `1.0` and `-2.0`. -/
theorem readFileToMemory_plain_witness :
    ([0, 0, 128, 63, 0, 0, 0, 192] : List (Fin 256)).length % 4 = 0 ∧
    ∃ samples : List Nat,
      readFileToMemory id (.ok ⟨[0, 0, 128, 63, 0, 0, 0, 192], [7]⟩) false 0 = .ok samples ∧
      samples.length = ([0, 0, 128, 63, 0, 0, 0, 192] : List (Fin 256)).length / 4 ∧
      ∀ i : Nat, i < ([0, 0, 128, 63, 0, 0, 0, 192] : List (Fin 256)).length / 4 →
        ∃ b0 b1 b2 b3 : Fin 256,
        ([0, 0, 128, 63, 0, 0, 0, 192] : List (Fin 256))[4 * i]? = some b0 ∧
        ([0, 0, 128, 63, 0, 0, 0, 192] : List (Fin 256))[4 * i + 1]? = some b1 ∧
        ([0, 0, 128, 63, 0, 0, 0, 192] : List (Fin 256))[4 * i + 2]? = some b2 ∧
        ([0, 0, 128, 63, 0, 0, 0, 192] : List (Fin 256))[4 * i + 3]? = some b3 ∧
        samples[i]? = some (b0.val + 256 * b1.val + 65536 * b2.val + 16777216 * b3.val) :=
  ⟨by decide, readFileToMemory_plain id ⟨[0, 0, 128, 63, 0, 0, 0, 192], [7]⟩ (by decide)⟩

/-! ## `saveImagesFromArray` -/

/-- A counting loop that keeps an invariant and never aborts ends normally in a
state that satisfies the invariant. -/
theorem foldlM_range_invariant {σ ε : Type} (f : σ → Nat → Except ε σ) (P : Nat → σ → Prop)
    (n : Nat) (s0 : σ) (h0 : P 0 s0)
    (hstep : ∀ k, k < n → ∀ s, P k s → ∃ s', f s k = .ok s' ∧ P (k + 1) s') :
    ∃ s, (List.range n).foldlM f s0 = .ok s ∧ P n s := by
  induction n with
  | zero => exact ⟨s0, rfl, h0⟩
  | succ n ih =>
    obtain ⟨s, hs, hP⟩ := ih (fun k hk => hstep k (by omega))
    obtain ⟨s', hf, hP'⟩ := hstep n (by omega) s hP
    refine ⟨s', ?_, hP'⟩
    rw [List.range_succ, List.foldlM_append, hs]
    show (List.foldlM f s [n]) = _
    rw [List.foldlM_cons, hf]
    rfl

theorem pixOffset_toNat (img : Gray) (length1 length2 x y : Nat)
    (hr : img.rect = { minX := 0, minY := 0, maxX := length1, maxY := length2 })
    (hs : img.stride = length1) :
    (img.pixOffset x y).toNat = y * length1 + x := by
  have e : img.pixOffset x y = ((y * length1 + x : Nat) : Int) := by
    simp only [Gray.pixOffset, hr, hs]
    push_cast
    ring
  rw [e, Int.toNat_ofNat]

theorem contains_inside (img : Gray) (length1 length2 x y : Nat)
    (hr : img.rect = { minX := 0, minY := 0, maxX := length1, maxY := length2 })
    (hx : x < length1) (hy : y < length2) :
    img.rect.contains x y = true := by
  simp [Rectangle.contains, hr, hx, hy]

theorem rasterFilled_newGray {F : Type} (ops : FloatOps F) (packedData : List F)
    (width height permutation : Int) (min max : F) (length1 length2 d : Nat) :
    RasterFilled ops packedData width height permutation min max length1 length2 d 0
      (newGray (imageRect 0 0 length1 length2)) := by
  have hr : imageRect 0 0 (length1 : Int) (length2 : Int)
      = { minX := 0, minY := 0, maxX := length1, maxY := length2 } := by
    simp [imageRect]
  refine ⟨?_, ?_, ?_, fun o ho => absurd ho (Nat.not_lt_zero o)⟩
  · simp [newGray, hr]
  · simp [newGray, hr, Rectangle.dx]
  · simp only [newGray, hr, Rectangle.dx, Rectangle.dy, List.length_replicate, sub_zero]
    rw [← Nat.cast_mul, Int.toNat_ofNat]

theorem div_mod_of_offset {length1 x y : Nat} (hx : x < length1) :
    (y * length1 + x) % length1 = x ∧ (y * length1 + x) / length1 = y := by
  constructor
  · rw [Nat.add_comm, Nat.add_mul_mod_self_right, Nat.mod_eq_of_lt hx]
  · rw [Nat.add_comm, Nat.add_mul_div_right _ _ (by omega : 0 < length1), Nat.div_eq_of_lt hx,
      Nat.zero_add]

theorem offset_lt {length1 length2 x y : Nat} (hx : x < length1) (hy : y < length2) :
    y * length1 + x < length1 * length2 := by
  calc y * length1 + x < y * length1 + length1 := by omega
    _ = (y + 1) * length1 := by ring
    _ ≤ length2 * length1 := Nat.mul_le_mul_right _ hy
    _ = length1 * length2 := Nat.mul_comm _ _

theorem setPixel_filled {F : Type} (ops : FloatOps F) (packedData : List F)
    (width height permutation : Int) (min max : F) (length1 length2 d x y : Nat)
    (hx : x < length1) (hy : y < length2)
    (hread : SliceReadable packedData width height permutation length1 length2 d)
    (img : Gray)
    (hinv : RasterFilled ops packedData width height permutation min max length1 length2 d
      (y * length1 + x) img) :
    ∃ img', setPixel ops packedData width height permutation min max d y img x = .ok img' ∧
      RasterFilled ops packedData width height permutation min max length1 length2 d
        (y * length1 + x + 1) img' := by
  obtain ⟨hr, hs, hlen, hpix⟩ := hinv
  obtain ⟨i, v, hg, hv⟩ := hread x y hx hy
  have hc := contains_inside img length1 length2 x y hr hx hy
  have ho := pixOffset_toNat img length1 length2 x y hr hs
  refine ⟨{ img with
    pix := (img.pix.set (y * length1 + x) (ops.toUint8 (normalize ops min max v))) },
    ?_, hr, hs, ?_, ?_⟩
  · simp only [setPixel, hg, hv, Gray.setGray, hc, if_true, ho]
  · simp [hlen]
  · intro o ho' i' v' hg' hv'
    rcases Nat.lt_succ_iff_lt_or_eq.mp ho' with hlt | heq
    · show (img.pix.set (y * length1 + x) _)[o]? = _
      rw [List.getElem?_set_ne (by omega)]
      exact hpix o hlt i' v' hg' hv'
    · subst heq
      obtain ⟨e1, e2⟩ := div_mod_of_offset (y := y) hx
      rw [e1, e2, hg] at hg'
      cases hg'
      rw [hv] at hv'
      cases hv'
      show (img.pix.set (y * length1 + x) _)[y * length1 + x]? = _
      rw [List.getElem?_set_self (by rw [hlen]; exact offset_lt hx hy)]

theorem renderRow_filled {F : Type} (ops : FloatOps F) (packedData : List F)
    (width height permutation : Int) (min max : F) (length1 length2 d y : Nat)
    (hy : y < length2)
    (hread : SliceReadable packedData width height permutation length1 length2 d)
    (img : Gray)
    (hinv : RasterFilled ops packedData width height permutation min max length1 length2 d
      (y * length1) img) :
    ∃ img', renderRow ops packedData width height permutation min max length1 d img y
        = .ok img' ∧
      RasterFilled ops packedData width height permutation min max length1 length2 d
        ((y + 1) * length1) img' := by
  have h := foldlM_range_invariant
    (setPixel ops packedData width height permutation min max d y)
    (fun k im => RasterFilled ops packedData width height permutation min max length1 length2 d
      (y * length1 + k) im)
    length1 img hinv
    (fun k hk s hs => setPixel_filled ops packedData width height permutation min max
      length1 length2 d k y hk hy hread s hs)
  obtain ⟨img', h1, h2⟩ := h
  refine ⟨img', ?_, ?_⟩
  · simpa [renderRow] using h1
  · have e : (y + 1) * length1 = y * length1 + length1 := by ring
    rw [e]
    exact h2

theorem renderSlice_filled {F : Type} (ops : FloatOps F) (packedData : List F)
    (width height permutation : Int) (min max : F) (length1 length2 d : Nat)
    (hread : SliceReadable packedData width height permutation length1 length2 d) :
    ∃ img, renderSlice ops packedData width height permutation min max length1 length2 d
        = .ok img ∧
      RasterFilled ops packedData width height permutation min max length1 length2 d
        (length2 * length1) img := by
  have h0 : RasterFilled ops packedData width height permutation min max length1 length2 d
      (0 * length1) (newGray (imageRect 0 0 length1 length2)) := by
    rw [Nat.zero_mul]
    exact rasterFilled_newGray ops packedData width height permutation min max length1 length2 d
  have h := foldlM_range_invariant
    (renderRow ops packedData width height permutation min max length1 d)
    (fun k im => RasterFilled ops packedData width height permutation min max length1 length2 d
      (k * length1) im)
    length2 (newGray (imageRect 0 0 length1 length2)) h0
    (fun k hk s hs => renderRow_filled ops packedData width height permutation min max
      length1 length2 d k hk hread s hs)
  obtain ⟨img, h1, h2⟩ := h
  exact ⟨img, by simpa [renderSlice] using h1, h2⟩

theorem grayAt_of_filled {F : Type} (ops : FloatOps F) (packedData : List F)
    (width height permutation : Int) (min max : F) (length1 length2 d : Nat) (img : Gray)
    (hinv : RasterFilled ops packedData width height permutation min max length1 length2 d
      (length2 * length1) img)
    (x y : Nat) (hx : x < length1) (hy : y < length2) (i : Int) (v : F)
    (hg : gatherIndex width height permutation x y d = some i)
    (hv : indexSlice packedData i = some v) :
    img.grayAt x y = ops.toUint8 (normalize ops min max v) := by
  obtain ⟨hr, hs, hlen, hpix⟩ := hinv
  have hc := contains_inside img length1 length2 x y hr hx hy
  have ho := pixOffset_toNat img length1 length2 x y hr hs
  obtain ⟨e1, e2⟩ := div_mod_of_offset (y := y) hx
  have hlt : y * length1 + x < length2 * length1 := by
    rw [Nat.mul_comm length2]; exact offset_lt hx hy
  have := hpix (y * length1 + x) hlt i v (by rw [e1, e2]; exact hg) hv
  simp only [Gray.grayAt, hc, if_true, ho]
  rw [List.getD_eq_getElem?_getD, this]
  rfl

theorem gatherIndex_inRange (permutation : Int) (hp : permutation ∈ validPermutations)
    (width height depth length1 length2 length3 : Nat)
    (hl : permutedLengths width height depth permutation
      = some ((length1 : Int), (length2 : Int), (length3 : Int)))
    (x y d : Nat) (hx : x < length1) (hy : y < length2) (hd : d < length3) :
    ∃ i : Nat, gatherIndex width height permutation x y d = some (i : Int) ∧
      i < width * height * depth := by
  rcases mem_validPermutations.mp hp with rfl | rfl | rfl | rfl | rfl | rfl <;>
    simp only [permutedLengths, Option.some.injEq, Prod.mk.injEq, Nat.cast_inj] at hl <;>
    norm_num at hl <;>
    obtain ⟨rfl, rfl, rfl⟩ := hl
  · simpa [gatherIndex] using flat_lt_int hx hy hd
  · simpa [gatherIndex] using flat_lt_int hx hd hy
  · simpa [gatherIndex] using flat_lt_int hy hx hd
  · simpa [gatherIndex] using flat_lt_int hd hx hy
  · simpa [gatherIndex] using flat_lt_int hy hd hx
  · simpa [gatherIndex] using flat_lt_int hd hy hx

theorem permutedLengths_nat (permutation : Int) (hp : permutation ∈ validPermutations)
    (width height depth : Nat) :
    ∃ length1 length2 length3 : Nat,
      permutedLengths width height depth permutation
        = some ((length1 : Int), (length2 : Int), (length3 : Int)) := by
  rcases mem_validPermutations.mp hp with rfl | rfl | rfl | rfl | rfl | rfl
  · exact ⟨width, height, depth, by simp [permutedLengths]⟩
  · exact ⟨width, depth, height, by simp [permutedLengths]⟩
  · exact ⟨height, width, depth, by simp [permutedLengths]⟩
  · exact ⟨height, depth, width, by simp [permutedLengths]⟩
  · exact ⟨depth, width, height, by simp [permutedLengths]⟩
  · exact ⟨depth, height, width, by simp [permutedLengths]⟩

theorem indexSlice_natCast {F : Type} (packedData : List F) (i : Nat)
    (hi : i < packedData.length) :
    indexSlice packedData (i : Int) = some packedData[i] := by
  simp [indexSlice, List.getElem?_eq_getElem hi]

theorem sliceReadable_of_length {F : Type} (packedData : List F) (permutation : Int)
    (hp : permutation ∈ validPermutations)
    (width height depth length1 length2 length3 : Nat)
    (hl : permutedLengths width height depth permutation
      = some ((length1 : Int), (length2 : Int), (length3 : Int)))
    (hlen : packedData.length = width * height * depth) (d : Nat) (hd : d < length3) :
    SliceReadable packedData width height permutation length1 length2 d := by
  intro x y hx hy
  obtain ⟨i, hi, hlt⟩ :=
    gatherIndex_inRange permutation hp width height depth length1 length2 length3 hl x y d hx hy hd
  have hin : i < packedData.length := by omega
  exact ⟨i, packedData[i], hi, indexSlice_natCast packedData i hin⟩

theorem toDigitsCore_lt_ten (fuel n : Nat) (ds : List Char) (hf : 0 < fuel) (hn : n < 10) :
    Nat.toDigitsCore 10 fuel n ds = Nat.digitChar n :: ds := by
  obtain ⟨f, rfl⟩ := Nat.exists_eq_succ_of_ne_zero (by omega : fuel ≠ 0)
  have h1 : n / 10 = 0 := by omega
  have h2 : n % 10 = n := by omega
  simp [Nat.toDigitsCore, h1, h2]

theorem toDigitsCore_ge_ten (fuel n : Nat) (ds : List Char) (hf : 0 < fuel) (hn : 10 ≤ n) :
    Nat.toDigitsCore 10 fuel n ds
      = Nat.toDigitsCore 10 (fuel - 1) (n / 10) (Nat.digitChar (n % 10) :: ds) := by
  obtain ⟨f, rfl⟩ := Nat.exists_eq_succ_of_ne_zero (by omega : fuel ≠ 0)
  have h1 : n / 10 ≠ 0 := by omega
  simp [Nat.toDigitsCore, h1]

theorem zeroPadded_five (d : Nat) (hd : d ≤ 99999) :
    zeroPadded 5 d = String.mk [Nat.digitChar (d / 10000 % 10), Nat.digitChar (d / 1000 % 10),
      Nat.digitChar (d / 100 % 10), Nat.digitChar (d / 10 % 10), Nat.digitChar (d % 10)] := by
  unfold zeroPadded Nat.toDigits
  by_cases h1 : d < 10
  · rw [toDigitsCore_lt_ten _ _ _ (by omega) h1]
    have e1 : d / 10000 % 10 = 0 := by omega
    have e2 : d / 1000 % 10 = 0 := by omega
    have e3 : d / 100 % 10 = 0 := by omega
    have e4 : d / 10 % 10 = 0 := by omega
    have e5 : d % 10 = d := by omega
    rw [e1, e2, e3, e4, e5]
    rfl
  by_cases h2 : d < 100
  · rw [toDigitsCore_ge_ten _ _ _ (by omega) (by omega),
      toDigitsCore_lt_ten _ _ _ (by omega) (by omega)]
    have e1 : d / 10000 % 10 = 0 := by omega
    have e2 : d / 1000 % 10 = 0 := by omega
    have e3 : d / 100 % 10 = 0 := by omega
    have e4 : d / 10 % 10 = d / 10 := by omega
    rw [e1, e2, e3, e4]
    rfl
  by_cases h3 : d < 1000
  · rw [toDigitsCore_ge_ten _ _ _ (by omega) (by omega),
      toDigitsCore_ge_ten _ _ _ (by omega) (by omega),
      toDigitsCore_lt_ten _ _ _ (by omega) (by omega)]
    have e1 : d / 10000 % 10 = 0 := by omega
    have e2 : d / 1000 % 10 = 0 := by omega
    have e3 : d / 100 % 10 = d / 10 / 10 := by omega
    rw [e1, e2, e3]
    rfl
  by_cases h4 : d < 10000
  · rw [toDigitsCore_ge_ten _ _ _ (by omega) (by omega),
      toDigitsCore_ge_ten _ _ _ (by omega) (by omega),
      toDigitsCore_ge_ten _ _ _ (by omega) (by omega),
      toDigitsCore_lt_ten _ _ _ (by omega) (by omega)]
    have e1 : d / 10000 % 10 = 0 := by omega
    have e2 : d / 1000 % 10 = d / 10 / 10 / 10 := by omega
    have e3 : d / 100 % 10 = d / 10 / 10 % 10 := by omega
    rw [e1, e2, e3]
    rfl
  · rw [toDigitsCore_ge_ten _ _ _ (by omega) (by omega),
      toDigitsCore_ge_ten _ _ _ (by omega) (by omega),
      toDigitsCore_ge_ten _ _ _ (by omega) (by omega),
      toDigitsCore_ge_ten _ _ _ (by omega) (by omega),
      toDigitsCore_lt_ten _ _ _ (by omega) (by omega)]
    have e1 : d / 10000 % 10 = d / 10 / 10 / 10 / 10 := by omega
    have e2 : d / 1000 % 10 = d / 10 / 10 / 10 % 10 := by omega
    have e3 : d / 100 % 10 = d / 10 / 10 % 10 := by omega
    rw [e1, e2, e3]
    rfl

theorem entryName_eq_fiveDigitName (d : Nat) (hd : d ≤ 99999) :
    entryName d = fiveDigitName d := by
  unfold entryName fiveDigitName
  rw [zeroPadded_five d hd]

/-- The loop over `d` when every slice can be read and every `zw.Create`
succeeds: it ends normally, having appended one entry per slice index, in order. -/
theorem sliceLoop_ok {F : Type} (ops : FloatOps F) (env : OutputEnv) (packedData : List F)
    (width height permutation : Int) (min max : F) (length1 length2 : Nat)
    (ds : List Nat) (written : List Entry)
    (hread : ∀ d ∈ ds, SliceReadable packedData width height permutation length1 length2 d)
    (hzw : ∀ d ∈ ds, env.zwCreate d = none) :
    ∃ entries : List Entry,
      sliceLoop ops env packedData width height permutation min max length1 length2 ds written
        = { result := .ok (), entries := written ++ entries } ∧
      entries.map Entry.name = ds.map entryName ∧
      ∀ (k d : Nat), ds[k]? = some d → ∃ e : Entry, entries[k]? = some e ∧
        RasterFilled ops packedData width height permutation min max length1 length2 d
          (length2 * length1) e.img ∧
        e.encodeErr = pngEncode env d e.img := by
  induction ds generalizing written with
  | nil =>
    refine ⟨[], ?_, rfl, ?_⟩
    · simp [sliceLoop]
    · intro k d hk
      simp at hk
  | cons d rest ih =>
    obtain ⟨img, himg, hfill⟩ := renderSlice_filled ops packedData width height permutation
      min max length1 length2 d (hread d (List.mem_cons_self _ _))
    have hz : env.zwCreate d = none := hzw d (List.mem_cons_self _ _)
    obtain ⟨entries, hloop, hnames, hget⟩ :=
      ih (written ++ [{ name := entryName d, img := img, encodeErr := pngEncode env d img }])
        (fun d' hd' => hread d' (List.mem_cons_of_mem _ hd'))
        (fun d' hd' => hzw d' (List.mem_cons_of_mem _ hd'))
    refine ⟨{ name := entryName d, img := img, encodeErr := pngEncode env d img } :: entries,
      ?_, ?_, ?_⟩
    · simp only [sliceLoop, himg, hz]
      rw [hloop]
      simp
    · simp [hnames]
    · intro k d' hk
      cases k with
      | zero =>
        simp only [List.getElem?_cons_zero, Option.some.injEq] at hk
        subst hk
        exact ⟨{ name := entryName d, img := img, encodeErr := pngEncode env d img },
          List.getElem?_cons_zero, hfill, rfl⟩
      | succ k =>
        simp only [List.getElem?_cons_succ] at hk
        obtain ⟨e, he, h1, h2⟩ := hget k d' hk
        exact ⟨e, by simpa using he, h1, h2⟩

theorem getMinAndMax_of_pos_length {F : Type} (lt : F → F → Bool) (packedData : List F)
    (h : 0 < packedData.length) :
    ∃ min max : F, getMinAndMax lt packedData = some (min, max) := by
  cases packedData with
  | nil => simp at h
  | cons first rest => exact ⟨_, _, getMinAndMax_cons lt first rest⟩

/-- The run of `saveImagesFromArray` on a volume of the declared size, with a
valid code and an output side that accepts the file and every entry. -/
theorem saveImagesFromArray_run {F : Type} (ops : FloatOps F) (env : OutputEnv)
    (packedData : List F) (permutation : Int) (hp : permutation ∈ validPermutations)
    (width height depth : Nat) (hw : 0 < width) (hh : 0 < height) (hd : 0 < depth)
    (hlen : packedData.length = width * height * depth)
    (hcreate : env.osCreate = none) (hzw : ∀ d, env.zwCreate d = none) :
    ∃ (min max : F) (length1 length2 length3 : Nat) (entries : List Entry),
      getMinAndMax ops.lt packedData = some (min, max) ∧
      permutedLengths width height depth permutation
        = some ((length1 : Int), (length2 : Int), (length3 : Int)) ∧
      saveImagesFromArray ops env packedData width height depth permutation
        = { result := .ok (), entries := entries } ∧
      entries.map Entry.name = (List.range length3).map entryName ∧
      (∀ d : Nat, d < length3 →
        SliceReadable packedData width height permutation length1 length2 d) ∧
      ∀ d : Nat, d < length3 → ∃ e : Entry, entries[d]? = some e ∧
        RasterFilled ops packedData width height permutation min max length1 length2 d
          (length2 * length1) e.img ∧
        e.encodeErr = pngEncode env d e.img := by
  have hpos : 0 < packedData.length := by
    rw [hlen]; exact Nat.mul_pos (Nat.mul_pos hw hh) hd
  obtain ⟨min, max, hmm⟩ := getMinAndMax_of_pos_length ops.lt packedData hpos
  obtain ⟨length1, length2, length3, hl⟩ := permutedLengths_nat permutation hp width height depth
  have hread : ∀ d ∈ List.range length3,
      SliceReadable packedData width height permutation length1 length2 d := fun d hd' =>
    sliceReadable_of_length packedData permutation hp width height depth length1 length2
      length3 hl hlen d (List.mem_range.mp hd')
  obtain ⟨entries, hloop, hnames, hget⟩ := sliceLoop_ok ops env packedData width height
    permutation min max length1 length2 (List.range length3) [] hread (fun d _ => hzw d)
  refine ⟨min, max, length1, length2, length3, entries, hmm, hl, ?_, hnames,
    fun d hd' => hread d (List.mem_range.mpr hd'), ?_⟩
  · simp only [saveImagesFromArray, hcreate, hmm, hl, Int.toNat_ofNat]
    rw [hloop]
    simp
  · intro d hd'
    exact hget d d (by simp [List.getElem?_range hd'])

/-- C4. For every valid permutation code, positive dimensions and a volume of
`width*height*depth` samples, on an output side that accepts the file and every
entry, `saveImagesFromArray` produces `length3` slices; slice `d` is a
`length1 x length2` raster whose pixel `(x, y)` is the 8-bit conversion of
`(v - min)/(max - min)*255`, where `v` is the sample gathered for `(x, y, d)` and
`(min, max)` is the one pair `getMinAndMax` returns for the whole volume. -/
theorem saveImagesFromArray_slices {F : Type} (ops : FloatOps F) (env : OutputEnv)
    (packedData : List F) (permutation : Int) (hp : permutation ∈ validPermutations)
    (width height depth : Nat) (hw : 0 < width) (hh : 0 < height) (hd : 0 < depth)
    (hlen : packedData.length = width * height * depth)
    (hcreate : env.osCreate = none) (hzw : ∀ d, env.zwCreate d = none) :
    ∃ (min max : F) (length1 length2 length3 : Nat),
      getMinAndMax ops.lt packedData = some (min, max) ∧
      permutedLengths width height depth permutation
        = some ((length1 : Int), (length2 : Int), (length3 : Int)) ∧
      (saveImagesFromArray ops env packedData width height depth permutation).result
        = .ok () ∧
      (saveImagesFromArray ops env packedData width height depth permutation).entries.length
        = length3 ∧
      ∀ d : Nat, d < length3 → ∃ e : Entry,
        (saveImagesFromArray ops env packedData width height depth permutation).entries[d]?
          = some e ∧
        e.img.rect = { minX := 0, minY := 0, maxX := length1, maxY := length2 } ∧
        e.img.stride = length1 ∧
        e.img.pix.length = length1 * length2 ∧
        ∀ x y : Nat, x < length1 → y < length2 → ∃ (i : Int) (v : F),
          gatherIndex width height permutation x y d = some i ∧
          indexSlice packedData i = some v ∧
          e.img.grayAt x y = ops.toUint8 (normalize ops min max v) := by
  obtain ⟨min, max, length1, length2, length3, entries, hmm, hl, hrun, hnames, hread, hget⟩ :=
    saveImagesFromArray_run ops env packedData permutation hp width height depth hw hh hd hlen
      hcreate hzw
  refine ⟨min, max, length1, length2, length3, hmm, hl, ?_, ?_, ?_⟩
  · rw [hrun]
  · rw [hrun]
    have := congrArg List.length hnames
    simpa using this
  · intro d hd'
    obtain ⟨e, he, hfill, -⟩ := hget d hd'
    refine ⟨e, by rw [hrun]; exact he, hfill.1, hfill.2.1, hfill.2.2.1, ?_⟩
    intro x y hx hy
    obtain ⟨i, v, hg, hv⟩ := hread d hd' x y hx hy
    exact ⟨i, v, hg, hv, grayAt_of_filled ops packedData width height permutation min max
      length1 length2 d e.img hfill x y hx hy i v hg hv⟩

/-- C5. For every valid permutation code, positive dimensions and a volume of
`width*height*depth` samples, on an output side that accepts the file and every
entry, the entry names written by `saveImagesFromArray` are exactly
`name(0), ..., name(length3-1)` in that order, where for `d <= 99999` the name is
`image.` followed by the five decimal digits of `d` and `.png`; `d = 7` gives
`image.00007.png`. -/
theorem saveImagesFromArray_entry_names {F : Type} (ops : FloatOps F) (env : OutputEnv)
    (packedData : List F) (permutation : Int) (hp : permutation ∈ validPermutations)
    (width height depth : Nat) (hw : 0 < width) (hh : 0 < height) (hd : 0 < depth)
    (hlen : packedData.length = width * height * depth)
    (hcreate : env.osCreate = none) (hzw : ∀ d, env.zwCreate d = none) :
    ∃ length1 length2 length3 : Nat,
      permutedLengths width height depth permutation
        = some ((length1 : Int), (length2 : Int), (length3 : Int)) ∧
      (saveImagesFromArray ops env packedData width height depth permutation).result
        = .ok () ∧
      (saveImagesFromArray ops env packedData width height depth permutation).entries.map
          Entry.name
        = (List.range length3).map entryName ∧
      (∀ d : Nat, d ≤ 99999 → entryName d = fiveDigitName d) ∧
      entryName 7 = "image.00007.png" := by
  obtain ⟨min, max, length1, length2, length3, entries, hmm, hl, hrun, hnames, hread, hget⟩ :=
    saveImagesFromArray_run ops env packedData permutation hp width height depth hw hh hd hlen
      hcreate hzw
  refine ⟨length1, length2, length3, hl, by rw [hrun], by rw [hrun]; exact hnames,
    entryName_eq_fiveDigitName, by decide⟩

/-- The statement of C4 on the 2x2x2 volume with samples `0..7` and code 123, in
exact arithmetic: two 2x2 rasters holding the normalised samples `0..3` and
`4..7`. -/
theorem saveImagesFromArray_slices_witness :
    (123 : Int) ∈ validPermutations ∧ 0 < 2 ∧
    ([0, 1, 2, 3, 4, 5, 6, 7] : List ℚ).length = 2 * 2 * 2 ∧
    quietEnv.osCreate = none ∧ (∀ d, quietEnv.zwCreate d = none) ∧
    (∃ (min max : ℚ) (length1 length2 length3 : Nat),
      getMinAndMax exactOps.lt [0, 1, 2, 3, 4, 5, 6, 7] = some (min, max) ∧
      permutedLengths (2 : Nat) (2 : Nat) (2 : Nat) 123
        = some ((length1 : Int), (length2 : Int), (length3 : Int)) ∧
      (saveImagesFromArray exactOps quietEnv [0, 1, 2, 3, 4, 5, 6, 7]
        (2 : Nat) (2 : Nat) (2 : Nat) 123).result = .ok () ∧
      (saveImagesFromArray exactOps quietEnv [0, 1, 2, 3, 4, 5, 6, 7]
        (2 : Nat) (2 : Nat) (2 : Nat) 123).entries.length = length3 ∧
      ∀ d : Nat, d < length3 → ∃ e : Entry,
        (saveImagesFromArray exactOps quietEnv [0, 1, 2, 3, 4, 5, 6, 7]
          (2 : Nat) (2 : Nat) (2 : Nat) 123).entries[d]? = some e ∧
        e.img.rect = { minX := 0, minY := 0, maxX := length1, maxY := length2 } ∧
        e.img.stride = length1 ∧
        e.img.pix.length = length1 * length2 ∧
        ∀ x y : Nat, x < length1 → y < length2 → ∃ (i : Int) (v : ℚ),
          gatherIndex (2 : Nat) (2 : Nat) 123 x y d = some i ∧
          indexSlice [0, 1, 2, 3, 4, 5, 6, 7] i = some v ∧
          e.img.grayAt x y = exactOps.toUint8 (normalize exactOps min max v)) ∧
    (saveImagesFromArray exactOps quietEnv [0, 1, 2, 3, 4, 5, 6, 7] 2 2 2 123).entries.map
        (fun e => (e.name, e.img.pix))
      = [("image.00000.png", [0, 36, 72, 109]), ("image.00001.png", [145, 182, 218, 255])] :=
  ⟨by decide, by decide, by decide, rfl, fun _ => rfl,
    saveImagesFromArray_slices exactOps quietEnv [0, 1, 2, 3, 4, 5, 6, 7] 123 (by decide)
      2 2 2 (by decide) (by decide) (by decide) (by decide) rfl (fun _ => rfl),
    by decide!⟩

/-- The statement of C5 on a 1x2x3 volume with code 231. -/
theorem saveImagesFromArray_entry_names_witness :
    (231 : Int) ∈ validPermutations ∧ 0 < 1 ∧ 0 < 2 ∧ 0 < 3 ∧
    ([0, 1, 2, 3, 4, 5] : List ℚ).length = 1 * 2 * 3 ∧
    quietEnv.osCreate = none ∧ (∀ d, quietEnv.zwCreate d = none) ∧
    ∃ length1 length2 length3 : Nat,
      permutedLengths (1 : Nat) (2 : Nat) (3 : Nat) 231
        = some ((length1 : Int), (length2 : Int), (length3 : Int)) ∧
      (saveImagesFromArray exactOps quietEnv [0, 1, 2, 3, 4, 5]
        (1 : Nat) (2 : Nat) (3 : Nat) 231).result = .ok () ∧
      (saveImagesFromArray exactOps quietEnv [0, 1, 2, 3, 4, 5]
          (1 : Nat) (2 : Nat) (3 : Nat) 231).entries.map Entry.name
        = (List.range length3).map entryName ∧
      (∀ d : Nat, d ≤ 99999 → entryName d = fiveDigitName d) ∧
      entryName 7 = "image.00007.png" :=
  ⟨by decide, by decide, by decide, by decide, by decide, rfl, fun _ => rfl,
    saveImagesFromArray_entry_names exactOps quietEnv [0, 1, 2, 3, 4, 5] 231 (by decide)
      1 2 3 (by decide) (by decide) (by decide) (by decide) rfl (fun _ => rfl)⟩

/-- On an empty volume `saveImagesFromArray` panics in `getMinAndMax`, before the
permutation code is looked at. -/
theorem saveImagesFromArray_nil {F : Type} (ops : FloatOps F) (env : OutputEnv)
    (hcreate : env.osCreate = none) (width height depth permutation : Int) :
    saveImagesFromArray ops env ([] : List F) width height depth permutation
      = { result := .error .panic, entries := [] } := by
  simp [saveImagesFromArray, hcreate, getMinAndMax_nil]

/-- On a non-empty volume an invalid permutation code is answered by the error of
the `default` branch, and nothing is written. -/
theorem saveImagesFromArray_invalid_permutation {F : Type} (ops : FloatOps F)
    (env : OutputEnv) (hcreate : env.osCreate = none) (first : F) (rest : List F)
    (width height depth permutation : Int) (hp : permutation ∉ validPermutations) :
    saveImagesFromArray ops env (first :: rest) width height depth permutation
      = { result := .error (.error invalidPermutationMessage), entries := [] } := by
  have hl : permutedLengths width height depth permutation = none := by
    rw [mem_validPermutations] at hp
    simp only [not_or] at hp
    obtain ⟨h1, h2, h3, h4, h5, h6⟩ := hp
    simp [permutedLengths, h1, h2, h3, h4, h5, h6]
  simp only [saveImagesFromArray, hcreate, getMinAndMax_cons, hl]

/-- C9, as stated, fails on the empty volume: with the invalid code `0`,
`saveImagesFromArray` panics instead of returning the invalid-permutation error,
while on a one-sample volume the same call returns that error. -/
theorem saveImagesFromArray_empty_invalid_panics :
    (0 : Int) ∉ validPermutations ∧
    saveImagesFromArray exactOps quietEnv [] 0 0 0 0
      = { result := .error .panic, entries := [] } ∧
    (saveImagesFromArray exactOps quietEnv [] 0 0 0 0).result
      ≠ .error (.error invalidPermutationMessage) ∧
    saveImagesFromArray exactOps quietEnv [5] 1 1 1 0
      = { result := .error (.error invalidPermutationMessage), entries := [] } :=
  ⟨by decide, saveImagesFromArray_nil exactOps quietEnv rfl 0 0 0 0,
    (by rw [saveImagesFromArray_nil exactOps quietEnv rfl 0 0 0 0]; intro h; cases h),
    saveImagesFromArray_invalid_permutation exactOps quietEnv rfl 5 [] 1 1 1 0 (by decide)⟩

/-! ## Unbounded integers against 64-bit integers -/

theorem wrapInt64_of_lt (n : Nat) (h : n < 2 ^ 63) : wrapInt64 (n : Int) = (n : Int) := by
  unfold wrapInt64
  omega

theorem flatIndex64_eq {w h a b c : Nat} (hb : b < h)
    (hlt : a * w * h + b * w + c < 2 ^ 63) :
    flatIndex64 w h a b c = (a : Int) * w * h + b * w + c := by
  have h1 : a * w ≤ a * w * h := Nat.le_mul_of_pos_right _ (by omega)
  have e1 : wrapInt64 ((a : Int) * (w : Int)) = ((a * w : Nat) : Int) := by
    rw [← Nat.cast_mul]; exact wrapInt64_of_lt _ (by omega)
  have e2 : wrapInt64 (((a * w : Nat) : Int) * (h : Int)) = ((a * w * h : Nat) : Int) := by
    rw [← Nat.cast_mul]; exact wrapInt64_of_lt _ (by omega)
  have e3 : wrapInt64 ((b : Int) * (w : Int)) = ((b * w : Nat) : Int) := by
    rw [← Nat.cast_mul]; exact wrapInt64_of_lt _ (by omega)
  have e4 : wrapInt64 (((a * w * h : Nat) : Int) + ((b * w : Nat) : Int))
      = ((a * w * h + b * w : Nat) : Int) := by
    rw [← Nat.cast_add]; exact wrapInt64_of_lt _ (by omega)
  have e5 : wrapInt64 (((a * w * h + b * w : Nat) : Int) + (c : Int))
      = ((a * w * h + b * w + c : Nat) : Int) := by
    rw [← Nat.cast_add]; exact wrapInt64_of_lt _ (by omega)
  unfold flatIndex64
  rw [e1, e2, e3, e4, e5]
  push_cast
  ring

/-- On a volume that fits a Go slice (`width*height*depth < 2^63`), no product or
sum of the index expression wraps around: the 64-bit index is the unbounded one. -/
theorem gatherIndex64_eq_gatherIndex (permutation : Int) (hp : permutation ∈ validPermutations)
    (width height depth length1 length2 length3 : Nat)
    (hl : permutedLengths width height depth permutation
      = some ((length1 : Int), (length2 : Int), (length3 : Int)))
    (hfit : width * height * depth < 2 ^ 63)
    (x y d : Nat) (hx : x < length1) (hy : y < length2) (hd : d < length3) :
    gatherIndex64 width height permutation x y d = gatherIndex width height permutation x y d := by
  rcases mem_validPermutations.mp hp with rfl | rfl | rfl | rfl | rfl | rfl <;>
    simp only [permutedLengths, Option.some.injEq, Prod.mk.injEq, Nat.cast_inj] at hl <;>
    norm_num at hl <;>
    obtain ⟨rfl, rfl, rfl⟩ := hl
  · have hb := flat_lt hx hy hd
    have e := flatIndex64_eq (w := width) (h := height) (a := d) (b := y) (c := x) hy (by omega)
    simp [gatherIndex64, gatherIndex, e]
  · have hb := flat_lt hx hd hy
    have e := flatIndex64_eq (w := width) (h := height) (a := y) (b := d) (c := x) hd (by omega)
    simp [gatherIndex64, gatherIndex, e]
  · have hb := flat_lt hy hx hd
    have e := flatIndex64_eq (w := width) (h := height) (a := d) (b := x) (c := y) hx (by omega)
    simp [gatherIndex64, gatherIndex, e]
  · have hb := flat_lt hd hx hy
    have e := flatIndex64_eq (w := width) (h := height) (a := y) (b := x) (c := d) hx (by omega)
    simp [gatherIndex64, gatherIndex, e]
  · have hb := flat_lt hy hd hx
    have e := flatIndex64_eq (w := width) (h := height) (a := x) (b := d) (c := y) hd (by omega)
    simp [gatherIndex64, gatherIndex, e]
  · have hb := flat_lt hd hy hx
    have e := flatIndex64_eq (w := width) (h := height) (a := x) (b := y) (c := d) hy (by omega)
    simp [gatherIndex64, gatherIndex, e]

/-! ## `readFileToMemory`: inversion, logarithms and partial groups -/

theorem decodeSample_eq (logStep : Nat → Nat) (rawData : ByteSlice) (invert : Bool)
    (numLogs : Int) (acc : List Nat) (i : Nat) :
    decodeSample logStep rawData invert numLogs acc i =
      match rawBitsAt rawData i with
      | none => .error .panic
      | some v => .ok (acc ++ [sampleTransform logStep invert numLogs v]) := by
  unfold decodeSample rawBitsAt
  cases h1 : sliceFour rawData i with
  | none => rfl
  | some group =>
    simp only []
    cases h2 : littleEndianUint32 group with
    | none => rfl
    | some v => rfl

theorem foldlM_decodeSample_eq (logStep : Nat → Nat) (rawData : ByteSlice) (invert : Bool)
    (numLogs : Int) (offsets : List Nat) (acc : List Nat) :
    offsets.foldlM (decodeSample logStep rawData invert numLogs) acc =
      match decodeGroups rawData offsets with
      | none => .error .panic
      | some vs => .ok (acc ++ vs.map (sampleTransform logStep invert numLogs)) := by
  induction offsets generalizing acc with
  | nil =>
    simp only [decodeGroups, List.foldlM_nil, List.map_nil, List.append_nil]
    rfl
  | cons i rest ih =>
    rw [List.foldlM_cons, decodeSample_eq]
    cases h1 : rawBitsAt rawData i with
    | none => simp [decodeGroups, h1]; rfl
    | some v =>
      simp only [decodeGroups, h1]
      show (rest.foldlM (decodeSample logStep rawData invert numLogs)
        (acc ++ [sampleTransform logStep invert numLogs v])) = _
      rw [ih]
      cases h2 : decodeGroups rawData rest with
      | none => rfl
      | some vs => simp

theorem readFileToMemory_eq (logStep : Nat → Nat) (rawData : ByteSlice) (invert : Bool)
    (numLogs : Int) :
    readFileToMemory logStep (.ok rawData) invert numLogs =
      match decodeGroups rawData (loopOffsets rawData.data.length) with
      | none => .error .panic
      | some vs => .ok (vs.map (sampleTransform logStep invert numLogs)) := by
  simp only [readFileToMemory]
  rw [foldlM_decodeSample_eq]
  cases decodeGroups rawData (loopOffsets rawData.data.length) <;> simp

theorem sampleTransform_plain (logStep : Nat → Nat) (v : Nat) :
    sampleTransform logStep false 0 v = v := rfl

theorem map_sampleTransform_plain (logStep : Nat → Nat) (vs : List Nat) :
    vs.map (sampleTransform logStep false 0) = vs := by
  induction vs with
  | nil => rfl
  | cons v vs ih => simp [sampleTransform_plain, ih]

theorem readFileToMemory_map (logStep : Nat → Nat) (file : Except String ByteSlice)
    (invert : Bool) (numLogs : Int) :
    readFileToMemory logStep file invert numLogs =
      Except.map (List.map (sampleTransform logStep invert numLogs))
        (readFileToMemory logStep file false 0) := by
  cases file with
  | error err => rfl
  | ok rawData =>
    rw [readFileToMemory_eq, readFileToMemory_eq]
    cases decodeGroups rawData (loopOffsets rawData.data.length) with
    | none => rfl
    | some vs => simp [Except.map, map_sampleTransform_plain]

/-- C13. For every log-repeat count `n >= 0`, the volume stored by
`readFileToMemory` is the plainly decoded volume with every sample `v` replaced
by the `n`-fold iterate of the log step applied to `v'`, where `v'` is `-v` when
`invert` is set and `v` otherwise: `n = 0` leaves `v'` unchanged, `n = 2` gives
`step (step v')`, the result for `n + 1` is the step applied to the result for
`n`; the sign flip comes before the first log step, for every sample alike. -/
theorem readFileToMemory_log_invert (logStep : Nat → Nat) (file : Except String ByteSlice)
    (invert : Bool) (n : Nat) :
    readFileToMemory logStep file invert n =
      Except.map (List.map (sampleTransform logStep invert n))
        (readFileToMemory logStep file false 0) ∧
    (∀ v : Nat, sampleTransform logStep invert n v
      = Nat.iterate logStep n (if invert then f32Neg v else v)) ∧
    (∀ v : Nat, sampleTransform logStep invert 0 v = if invert then f32Neg v else v) ∧
    (∀ v : Nat, sampleTransform logStep invert 2 v
      = logStep (logStep (if invert then f32Neg v else v))) ∧
    (∀ v : Nat, sampleTransform logStep invert ((n + 1 : Nat) : Int) v
      = logStep (sampleTransform logStep invert n v)) := by
  refine ⟨readFileToMemory_map logStep file invert n, fun v => ?_, fun v => rfl, fun v => rfl,
    fun v => ?_⟩
  · simp [sampleTransform]
  · simp only [sampleTransform, Int.toNat_ofNat]
    exact Function.iterate_succ_apply' logStep n _

theorem f32IsNaN_neg (a : Nat) : f32IsNaN (f32Neg a) = f32IsNaN a := by
  unfold f32IsNaN f32Neg
  split
  · next h =>
    have e : (a - 2 ^ 31) % 2 ^ 31 = a % 2 ^ 31 := by omega
    rw [e]
  · next h =>
    have e : (a + 2 ^ 31) % 2 ^ 31 = a % 2 ^ 31 := by omega
    rw [e]

theorem f32Key_neg (a : Nat) : f32Key (f32Neg a) = -f32Key a := by
  unfold f32Key f32Neg
  split
  · next h =>
    have e : (a - 2 ^ 31) % 2 ^ 31 = a % 2 ^ 31 := by omega
    have s : ¬ ((a - 2 ^ 31) / 2 ^ 31 % 2 = 1) := by omega
    rw [if_neg s, e]
    simp
  · next h =>
    have e : (a + 2 ^ 31) % 2 ^ 31 = a % 2 ^ 31 := by omega
    have s : (a + 2 ^ 31) / 2 ^ 31 % 2 = 1 := by omega
    rw [if_pos s, e]

theorem f32Lt_neg (a b : Nat) : f32Lt (f32Neg a) (f32Neg b) = f32Lt b a := by
  unfold f32Lt
  rw [f32IsNaN_neg, f32IsNaN_neg, f32Key_neg, f32Key_neg]
  have e : decide (-f32Key a < -f32Key b) = decide (f32Key b < f32Key a) := by
    simp
  rw [e, Bool.and_comm (!f32IsNaN a) (!f32IsNaN b)]

theorem minMaxStep_neg (acc : Nat × Nat) (e : Nat) :
    minMaxStep f32Lt (f32Neg acc.2, f32Neg acc.1) (f32Neg e)
      = (f32Neg (minMaxStep f32Lt acc e).2, f32Neg (minMaxStep f32Lt acc e).1) := by
  apply Prod.ext
  · rw [minMaxStep_fst, minMaxStep_snd]
    simp only [f32Lt_neg]
    split <;> rfl
  · rw [minMaxStep_snd, minMaxStep_fst]
    simp only [f32Lt_neg]
    split <;> rfl

theorem foldl_minMaxStep_neg (l : List Nat) (acc : Nat × Nat) :
    (l.map f32Neg).foldl (minMaxStep f32Lt) (f32Neg acc.2, f32Neg acc.1)
      = (f32Neg (l.foldl (minMaxStep f32Lt) acc).2, f32Neg (l.foldl (minMaxStep f32Lt) acc).1) := by
  induction l generalizing acc with
  | nil => rfl
  | cons e l ih =>
    rw [List.map_cons, List.foldl_cons, List.foldl_cons, minMaxStep_neg]
    exact ih (minMaxStep f32Lt acc e)

theorem getMinAndMax_map_neg (first : Nat) (rest : List Nat) :
    ∃ min0 max0 : Nat, getMinAndMax f32Lt (first :: rest) = some (min0, max0) ∧
      getMinAndMax f32Lt ((first :: rest).map f32Neg) = some (f32Neg max0, f32Neg min0) := by
  refine ⟨((first :: rest).foldl (minMaxStep f32Lt) (first, first)).1,
    ((first :: rest).foldl (minMaxStep f32Lt) (first, first)).2,
    getMinAndMax_cons f32Lt first rest, ?_⟩
  rw [List.map_cons, getMinAndMax_cons, ← List.map_cons]
  rw [foldl_minMaxStep_neg (first :: rest) (first, first)]

/-- C12. For every non-empty byte stream whose length is a multiple of 4, the
volume loaded with `invert = true` holds the negation of every sample of the
volume loaded with `invert = false`, and if `getMinAndMax` gives `(min0, max0)`
on the latter it gives `(-max0, -min0)` on the former.  (The absence of NaN is
not needed.) -/
theorem readFileToMemory_invert_minmax (logStep : Nat → Nat) (rawData : ByteSlice)
    (h4 : rawData.data.length % 4 = 0) (hne : rawData.data ≠ []) :
    ∃ (plain : List Nat) (min0 max0 : Nat),
      readFileToMemory logStep (.ok rawData) false 0 = .ok plain ∧
      getMinAndMax f32Lt plain = some (min0, max0) ∧
      readFileToMemory logStep (.ok rawData) true 0 = .ok (plain.map f32Neg) ∧
      getMinAndMax f32Lt (plain.map f32Neg) = some (f32Neg max0, f32Neg min0) := by
  obtain ⟨plain, hs, hlen, -⟩ :=
    foldlM_decodeSample_plain logStep rawData (rawData.data.length / 4) (by omega)
  have hplain : readFileToMemory logStep (.ok rawData) false 0 = .ok plain := by
    simp only [readFileToMemory]
    rw [loopOffsets_of_dvd h4]
    exact hs
  have hpos : 0 < rawData.data.length := List.length_pos.mpr hne
  cases plain with
  | nil => simp at hlen; omega
  | cons first rest =>
    obtain ⟨min0, max0, h1, h2⟩ := getMinAndMax_map_neg first rest
    refine ⟨first :: rest, min0, max0, hplain, h1, ?_, h2⟩
    rw [readFileToMemory_map, hplain]
    simp only [Except.map]
    congr 1

/-- The statement of C12 on the eight bytes of `1.0` and `-2.0`. -/
theorem readFileToMemory_invert_minmax_witness :
    ([0, 0, 128, 63, 0, 0, 0, 192] : List (Fin 256)).length % 4 = 0 ∧
    ([0, 0, 128, 63, 0, 0, 0, 192] : List (Fin 256)) ≠ [] ∧
    ∃ (plain : List Nat) (min0 max0 : Nat),
      readFileToMemory id (.ok ⟨[0, 0, 128, 63, 0, 0, 0, 192], []⟩) false 0 = .ok plain ∧
      getMinAndMax f32Lt plain = some (min0, max0) ∧
      readFileToMemory id (.ok ⟨[0, 0, 128, 63, 0, 0, 0, 192], []⟩) true 0
        = .ok (plain.map f32Neg) ∧
      getMinAndMax f32Lt (plain.map f32Neg) = some (f32Neg max0, f32Neg min0) :=
  ⟨by decide, by decide,
    readFileToMemory_invert_minmax id ⟨[0, 0, 128, 63, 0, 0, 0, 192], []⟩ (by decide) (by decide)⟩

theorem decodeGroups_length (rawData : ByteSlice) (offsets vs : List Nat)
    (h : decodeGroups rawData offsets = some vs) : vs.length = offsets.length := by
  induction offsets generalizing vs with
  | nil =>
    simp only [decodeGroups, Option.some.injEq] at h
    rw [← h]
  | cons i rest ih =>
    simp only [decodeGroups] at h
    cases h1 : rawBitsAt rawData i with
    | none => rw [h1] at h; simp at h
    | some v =>
      rw [h1] at h
      cases h2 : decodeGroups rawData rest with
      | none => rw [h2] at h; simp at h
      | some ws =>
        rw [h2] at h
        simp only [Option.some.injEq] at h
        rw [← h, List.length_cons, List.length_cons, ih ws h2]

theorem decodeGroups_none_of_mem (rawData : ByteSlice) (offsets : List Nat) (i : Nat)
    (hi : i ∈ offsets) (hnone : rawBitsAt rawData i = none) :
    decodeGroups rawData offsets = none := by
  induction offsets with
  | nil => simp at hi
  | cons j rest ih =>
    simp only [decodeGroups]
    rcases List.mem_cons.mp hi with rfl | hmem
    · rw [hnone]
    · cases rawBitsAt rawData j with
      | none => rfl
      | some v => simp only [ih hmem]

theorem rawBitsAt_none_of_cap (rawData : ByteSlice) (i : Nat)
    (h : rawData.data.length + rawData.spare.length < i + 4) : rawBitsAt rawData i = none := by
  simp [rawBitsAt, sliceFour, Nat.not_le.mpr h]

theorem loopOffsets_length (n : Nat) : (loopOffsets n).length = (n + 3) / 4 := by
  simp [loopOffsets]

theorem mem_loopOffsets_last (n : Nat) (hr : n % 4 ≠ 0) : 4 * (n / 4) ∈ loopOffsets n := by
  simp only [loopOffsets, List.mem_map, List.mem_range]
  exact ⟨n / 4, by omega, rfl⟩

/-- Whatever the flags, a normal return of `readFileToMemory` holds one sample per
offset visited by the loop: `ceil(len/4)` samples. -/
theorem readFileToMemory_ok_length (logStep : Nat → Nat) (rawData : ByteSlice)
    (invert : Bool) (numLogs : Int) (samples : List Nat)
    (h : readFileToMemory logStep (.ok rawData) invert numLogs = .ok samples) :
    samples.length = (rawData.data.length + 3) / 4 := by
  rw [readFileToMemory_eq] at h
  cases h1 : decodeGroups rawData (loopOffsets rawData.data.length) with
  | none => rw [h1] at h; simp at h
  | some vs =>
    rw [h1] at h
    simp only [Except.ok.injEq] at h
    rw [← h, List.length_map, decodeGroups_length rawData _ vs h1, loopOffsets_length]

/-- On a stream whose length is not a multiple of 4 the trailing group is never
dropped: a normal return holds `floor(len/4) + 1` samples, and when the backing
array is too short for the last slice expression the function panics. -/
theorem readFileToMemory_trailing_group (logStep : Nat → Nat) (rawData : ByteSlice)
    (invert : Bool) (numLogs : Int) (hr : rawData.data.length % 4 ≠ 0) :
    (∀ samples : List Nat,
      readFileToMemory logStep (.ok rawData) invert numLogs = .ok samples →
      samples.length = rawData.data.length / 4 + 1) ∧
    (rawData.spare.length + rawData.data.length % 4 < 4 →
      readFileToMemory logStep (.ok rawData) invert numLogs = .error .panic) := by
  constructor
  · intro samples h
    rw [readFileToMemory_ok_length logStep rawData invert numLogs samples h]
    omega
  · intro hcap
    rw [readFileToMemory_eq,
      decodeGroups_none_of_mem rawData _ (4 * (rawData.data.length / 4))
        (mem_loopOffsets_last _ hr) (rawBitsAt_none_of_cap rawData _ (by omega))]

set_option maxRecDepth 8000 in
/-- C11 fails: on the five bytes `00 00 80 3F 01`, read into a buffer of capacity
512 as `os.ReadFile` does, `readFileToMemory` returns two samples, not one: the
trailing byte is decoded together with three bytes that lie behind the stream.
When the backing array is too short for the last slice expression (a stream of
513 bytes in a buffer of capacity 514) the function panics. -/
theorem readFileToMemory_partial_group_kept :
    ([0, 0, 128, 63, 1] : List (Fin 256)).length % 4 ≠ 0 ∧
    ([0, 0, 128, 63, 1] : List (Fin 256)).length / 4 = 1 ∧
    readFileToMemory id (.ok ⟨[0, 0, 128, 63, 1], List.replicate 507 0⟩) false 0
      = .ok [0x3F800000, 1] ∧
    readFileToMemory id (.ok ⟨[0, 0, 128, 63, 1], [0]⟩) false 0 = .error .panic ∧
    readFileToMemory id (.ok ⟨List.replicate 513 0, [0]⟩) false 0 = .error .panic :=
  ⟨by decide, by decide, rfl, rfl,
    (readFileToMemory_trailing_group id ⟨List.replicate 513 0, [0]⟩ false 0 (by simp)).2 (by simp)⟩

/-! ## The normalisation in exact arithmetic -/

theorem normalize_exactOps (min max v : ℚ) :
    normalize exactOps min max v = (v - min) / (max - min) * 255 := rfl

theorem toUint8_exactOps_val (q : ℚ) :
    (exactOps.toUint8 q).val = (Int.tdiv q.num q.den % 256).toNat := rfl

/-- On `[0, 256)` the conversion to `uint8` is the floor: nothing wraps around. -/
theorem toUint8_exactOps_of_range (q : ℚ) (h0 : 0 ≤ q) (h1 : q < 256) :
    ((exactOps.toUint8 q).val : Int) = ⌊q⌋ := by
  have hnum : 0 ≤ q.num := Rat.num_nonneg.mpr h0
  have hden : (0 : Int) ≤ q.den := Int.ofNat_nonneg _
  have hfl : ⌊q⌋ = q.num / q.den := Rat.floor_def
  have hlo : 0 ≤ ⌊q⌋ := Int.floor_nonneg.mpr h0
  have hhi : ⌊q⌋ < 256 := Int.floor_lt.mpr (by exact_mod_cast h1)
  rw [toUint8_exactOps_val, Int.tdiv_eq_ediv hnum hden, ← hfl]
  omega

theorem normalize_exactOps_range (min max v : ℚ) (hlt : min < max) (hlo : min ≤ v)
    (hhi : v ≤ max) :
    0 ≤ normalize exactOps min max v ∧ normalize exactOps min max v ≤ 255 := by
  have hpos : 0 < max - min := sub_pos.mpr hlt
  rw [normalize_exactOps]
  constructor
  · exact mul_nonneg (div_nonneg (sub_nonneg.mpr hlo) (le_of_lt hpos)) (by norm_num)
  · have h1 : (v - min) / (max - min) ≤ 1 := by
      rw [div_le_one hpos]
      linarith
    linarith

theorem normalize_exactOps_mono (min max v1 v2 : ℚ) (hlt : min < max) (h : v1 ≤ v2) :
    normalize exactOps min max v1 ≤ normalize exactOps min max v2 := by
  have hpos : 0 < max - min := sub_pos.mpr hlt
  rw [normalize_exactOps, normalize_exactOps]
  apply mul_le_mul_of_nonneg_right _ (by norm_num)
  exact div_le_div_of_nonneg_right (by linarith) (le_of_lt hpos)

/-- C14. In exact arithmetic with the cast to 8 bits by truncation, for every
range with `max != min` the normalisation sends a sample equal to `min` to
intensity 0 and a sample equal to `max` to intensity 255. -/
theorem normalize_min_max (min max : ℚ) (hne : max ≠ min) :
    exactOps.toUint8 (normalize exactOps min max min) = 0 ∧
    exactOps.toUint8 (normalize exactOps min max max) = 255 := by
  have hd : max - min ≠ 0 := sub_ne_zero.mpr hne
  have e0 : normalize exactOps min max min = 0 := by
    rw [normalize_exactOps]; simp
  have e1 : normalize exactOps min max max = 255 := by
    rw [normalize_exactOps, div_self hd]; norm_num
  rw [e0, e1]
  constructor
  · decide!
  · decide!

/-- The statement of C14 on the range `(3, 7)`. -/
theorem normalize_min_max_witness :
    (7 : ℚ) ≠ 3 ∧
    exactOps.toUint8 (normalize exactOps 3 7 3) = 0 ∧
    exactOps.toUint8 (normalize exactOps 3 7 7) = 255 :=
  ⟨by norm_num, normalize_min_max 3 7 (by norm_num)⟩

/-- C15. In exact arithmetic with the cast to 8 bits by truncation, for
`min < max` and samples `v1 < v2` with `min <= v1` and `v2 <= max`, the intensity
of `v1` is at most the intensity of `v2`. -/
theorem normalize_monotone (min max v1 v2 : ℚ) (hlt : min < max) (h12 : v1 < v2)
    (hlo : min ≤ v1) (hhi : v2 ≤ max) :
    exactOps.toUint8 (normalize exactOps min max v1)
      ≤ exactOps.toUint8 (normalize exactOps min max v2) := by
  obtain ⟨a0, a1⟩ := normalize_exactOps_range min max v1 hlt hlo (by linarith)
  obtain ⟨b0, b1⟩ := normalize_exactOps_range min max v2 hlt (by linarith) hhi
  have ha := toUint8_exactOps_of_range _ a0 (by linarith)
  have hb := toUint8_exactOps_of_range _ b0 (by linarith)
  have hm := Int.floor_le_floor (normalize_exactOps_mono min max v1 v2 hlt (le_of_lt h12))
  rw [Fin.le_def]
  omega

/-- The statement of C15 on the range `(0, 7)` and the samples 2 and 5. -/
theorem normalize_monotone_witness :
    (0 : ℚ) < 7 ∧ (2 : ℚ) < 5 ∧ (0 : ℚ) ≤ 2 ∧ (5 : ℚ) ≤ 7 ∧
    exactOps.toUint8 (normalize exactOps 0 7 2) ≤ exactOps.toUint8 (normalize exactOps 0 7 5) :=
  ⟨by norm_num, by norm_num, by norm_num, by norm_num,
    normalize_monotone 0 7 2 5 (by norm_num) (by norm_num) (by norm_num) (by norm_num)⟩

theorem foldl_minMaxStep_exact (l : List ℚ) (acc : ℚ × ℚ) :
    (l.foldl (minMaxStep exactOps.lt) acc).1 ≤ acc.1 ∧
    acc.2 ≤ (l.foldl (minMaxStep exactOps.lt) acc).2 ∧
    ∀ s ∈ l, (l.foldl (minMaxStep exactOps.lt) acc).1 ≤ s ∧
      s ≤ (l.foldl (minMaxStep exactOps.lt) acc).2 := by
  induction l generalizing acc with
  | nil => simp
  | cons e l ih =>
    obtain ⟨i1, i2, i3⟩ := ih (minMaxStep exactOps.lt acc e)
    have k1 : (minMaxStep exactOps.lt acc e).1 ≤ acc.1 ∧ (minMaxStep exactOps.lt acc e).1 ≤ e := by
      rw [minMaxStep_fst]
      by_cases h : e < acc.1
      · have hb : exactOps.lt e acc.1 = true := decide_eq_true h
        rw [if_pos hb]; exact ⟨le_of_lt h, le_refl _⟩
      · have hb : ¬ (exactOps.lt e acc.1 = true) := fun hh => h (of_decide_eq_true hh)
        rw [if_neg hb]; exact ⟨le_refl _, not_lt.mp h⟩
    have k2 : acc.2 ≤ (minMaxStep exactOps.lt acc e).2 ∧ e ≤ (minMaxStep exactOps.lt acc e).2 := by
      rw [minMaxStep_snd]
      by_cases h : acc.2 < e
      · have hb : exactOps.lt acc.2 e = true := decide_eq_true h
        rw [if_pos hb]; exact ⟨le_of_lt h, le_refl _⟩
      · have hb : ¬ (exactOps.lt acc.2 e = true) := fun hh => h (of_decide_eq_true hh)
        rw [if_neg hb]; exact ⟨le_refl _, not_lt.mp h⟩
    rw [List.foldl_cons]
    refine ⟨le_trans i1 k1.1, le_trans k2.1 i2, ?_⟩
    intro s hs
    rcases List.mem_cons.mp hs with rfl | hs
    · exact ⟨le_trans i1 k1.2, le_trans k2.2 i2⟩
    · exact i3 s hs

theorem getMinAndMax_exact_bounds (packedData : List ℚ) (min max : ℚ)
    (h : getMinAndMax exactOps.lt packedData = some (min, max)) (v : ℚ) (hv : v ∈ packedData) :
    min ≤ v ∧ v ≤ max := by
  cases packedData with
  | nil => simp at hv
  | cons first rest =>
    rw [getMinAndMax_cons] at h
    simp only [Option.some.injEq] at h
    obtain ⟨-, -, i3⟩ := foldl_minMaxStep_exact (first :: rest) (first, first)
    rw [h] at i3
    exact i3 v hv

/-- On a volume of rational samples on which `getMinAndMax` returns `min < max`,
the exact value `(v - min)/(max - min)*255` of every sample `v` lies in
`[0, 255]`, and its conversion to `uint8` is its integer part. -/
theorem normalize_exactOps_in_range (packedData : List ℚ) (min max : ℚ)
    (hmm : getMinAndMax exactOps.lt packedData = some (min, max)) (hlt : min < max)
    (v : ℚ) (hv : v ∈ packedData) :
    0 ≤ normalize exactOps min max v ∧ normalize exactOps min max v ≤ 255 ∧
    ((exactOps.toUint8 (normalize exactOps min max v)).val : Int)
      = ⌊normalize exactOps min max v⌋ := by
  obtain ⟨hlo, hhi⟩ := getMinAndMax_exact_bounds packedData min max hmm v hv
  obtain ⟨a0, a1⟩ := normalize_exactOps_range min max v hlt hlo hhi
  exact ⟨a0, a1, toUint8_exactOps_of_range _ a0 (by linarith)⟩

/-! ## Reorderings and their inverses -/

/-- The index read by `saveImagesFromArray` is the canonical index of the
reordered triple. -/
theorem gatherIndex_eq_gatherTriple (width height permutation : Int) (x y d : Nat) :
    gatherIndex width height permutation x y d
      = (gatherTriple permutation (x, y, d)).map (canonicalIndex width height) := by
  unfold gatherIndex gatherTriple canonicalIndex
  split_ifs <;> simp

/-- C16. The reorderings of the codes 231 and 312 undo each other, in both
orders, at every coordinate; hence on a cubic volume, reordering by one and
reading through the other recovers the canonical index `d*w*w + y*w + x`.  The
reordering of a code is tied to the code's index expression by the two middle
conjuncts. -/
theorem gatherTriple_231_312_inverse (x y d : Nat) (width : Int) :
    gatherTwice 231 312 (x, y, d) = some (x, y, d) ∧
    gatherTwice 312 231 (x, y, d) = some (x, y, d) ∧
    (∀ w h : Int, gatherIndex w h 231 x y d
      = (gatherTriple 231 (x, y, d)).map (canonicalIndex w h)) ∧
    (∀ w h : Int, gatherIndex w h 312 x y d
      = (gatherTriple 312 (x, y, d)).map (canonicalIndex w h)) ∧
    (∃ t : Nat × Nat × Nat, gatherTriple 312 (x, y, d) = some t ∧
      gatherIndex width width 231 t.1 t.2.1 t.2.2
        = some (d * width * width + y * width + x)) ∧
    (∃ t : Nat × Nat × Nat, gatherTriple 231 (x, y, d) = some t ∧
      gatherIndex width width 312 t.1 t.2.1 t.2.2
        = some (d * width * width + y * width + x)) := by
  refine ⟨rfl, rfl, fun w h => gatherIndex_eq_gatherTriple w h 231 x y d,
    fun w h => gatherIndex_eq_gatherTriple w h 312 x y d, ⟨(y, d, x), rfl, ?_⟩,
    ⟨(d, x, y), rfl, ?_⟩⟩
  · simp [gatherIndex]
  · simp [gatherIndex]

/-- C17, as stated, fails at the coordinate `(0, 1, 2)` for each of the three
digit-reversed pairs, in both orders: the composite moves the coordinate, and on
a 3x3x3 volume 123 after 321 reads index 5 instead of 21. -/
theorem gatherTriple_reversed_counterexample :
    gatherTwice 123 321 (0, 1, 2) = some (2, 1, 0) ∧
    gatherTwice 321 123 (0, 1, 2) = some (2, 1, 0) ∧
    gatherTwice 132 231 (0, 1, 2) = some (2, 1, 0) ∧
    gatherTwice 231 132 (0, 1, 2) = some (1, 0, 2) ∧
    gatherTwice 213 312 (0, 1, 2) = some (2, 1, 0) ∧
    gatherTwice 312 213 (0, 1, 2) = some (0, 2, 1) ∧
    gatherIndex 3 3 123 2 1 0 = some 5 ∧ canonicalIndex 3 3 (0, 1, 2) = 21 := by
  decide

/-- C17, amended. For valid codes `p` and `q`, the reordering of `q` followed by
that of `p` is the identity exactly for the pairs 231/312 and 312/231 and for each
of 123, 132, 213, 321 paired with itself; no digit-reversed pair is among them. -/
theorem gatherTwice_eq_self_iff (p q : Int) (hp : p ∈ validPermutations)
    (hq : q ∈ validPermutations) :
    ((∀ t : Nat × Nat × Nat, gatherTwice p q t = some t) ↔ (p, q) ∈ inversePairs) ∧
    ((p, q) ∈ [(123, 321), (321, 123), (132, 231), (231, 132), (213, 312), (312, 213)] →
      (p, q) ∉ inversePairs) := by
  have key : ∀ p q : Int, p ∈ validPermutations → q ∈ validPermutations →
      (p, q) ∉ inversePairs → gatherTwice p q (0, 1, 2) ≠ some (0, 1, 2) := by
    intro p q hp hq
    rcases mem_validPermutations.mp hp with rfl | rfl | rfl | rfl | rfl | rfl <;>
      rcases mem_validPermutations.mp hq with rfl | rfl | rfl | rfl | rfl | rfl <;>
      decide
  constructor
  · constructor
    · intro h
      by_contra hn
      exact key p q hp hq hn (h (0, 1, 2))
    · intro h
      simp only [inversePairs, List.mem_cons, Prod.mk.injEq, List.mem_singleton,
        List.not_mem_nil, or_false] at h
      rcases h with ⟨rfl, rfl⟩ | ⟨rfl, rfl⟩ | ⟨rfl, rfl⟩ | ⟨rfl, rfl⟩ | ⟨rfl, rfl⟩ | ⟨rfl, rfl⟩ <;>
        intro t <;> rfl
  · intro h
    simp only [List.mem_cons, Prod.mk.injEq, List.mem_singleton, List.not_mem_nil,
      or_false] at h
    rcases h with ⟨rfl, rfl⟩ | ⟨rfl, rfl⟩ | ⟨rfl, rfl⟩ | ⟨rfl, rfl⟩ | ⟨rfl, rfl⟩ | ⟨rfl, rfl⟩ <;>
      decide

/-- The statement of C17, amended, on the pair 123, 321. -/
theorem gatherTwice_eq_self_iff_witness :
    (123 : Int) ∈ validPermutations ∧ (321 : Int) ∈ validPermutations ∧
    ((∀ t : Nat × Nat × Nat, gatherTwice 123 321 t = some t)
      ↔ ((123 : Int), (321 : Int)) ∈ inversePairs) ∧
    (((123 : Int), (321 : Int))
        ∈ [(123, 321), (321, 123), (132, 231), (231, 132), (213, 312), (312, 213)] →
      ((123 : Int), (321 : Int)) ∉ inversePairs) :=
  ⟨by decide, by decide, gatherTwice_eq_self_iff 123 321 (by decide) (by decide)⟩

/-! ## Failures of the output side -/

theorem pngEncode_ne_none_of_write (env : OutputEnv) (d : Nat) (img : Gray)
    (h : env.pngWrite d ≠ none) : pngEncode env d img ≠ none := by
  unfold pngEncode
  split
  · simp
  · exact h

/-- When every write of image data fails, `saveImagesFromArray` still returns
`nil`: the value returned by `png.Encode` is dropped. -/
theorem saveImagesFromArray_encode_error_dropped {F : Type} (ops : FloatOps F)
    (env : OutputEnv) (packedData : List F) (permutation : Int)
    (hp : permutation ∈ validPermutations)
    (width height depth : Nat) (hw : 0 < width) (hh : 0 < height) (hd : 0 < depth)
    (hlen : packedData.length = width * height * depth)
    (hcreate : env.osCreate = none) (hzw : ∀ d, env.zwCreate d = none)
    (hfail : ∀ d, env.pngWrite d ≠ none) :
    (saveImagesFromArray ops env packedData width height depth permutation).result = .ok () ∧
    (saveImagesFromArray ops env packedData width height depth permutation).entries ≠ [] ∧
    ∀ e ∈ (saveImagesFromArray ops env packedData width height depth permutation).entries,
      e.encodeErr ≠ none := by
  obtain ⟨min, max, length1, length2, length3, entries, hmm, hl, hrun, hnames, hread, hget⟩ :=
    saveImagesFromArray_run ops env packedData permutation hp width height depth hw hh hd hlen
      hcreate hzw
  have hlen3 : entries.length = length3 := by simpa using congrArg List.length hnames
  have hpos3 : 0 < length3 := by
    rcases mem_validPermutations.mp hp with rfl | rfl | rfl | rfl | rfl | rfl <;>
      simp only [permutedLengths, Option.some.injEq, Prod.mk.injEq, Nat.cast_inj] at hl <;>
      norm_num at hl <;>
      omega
  have hE : (saveImagesFromArray ops env packedData width height depth permutation).entries
      = entries := by rw [hrun]
  have hR : (saveImagesFromArray ops env packedData width height depth permutation).result
      = .ok () := by rw [hrun]
  rw [hE]
  refine ⟨hR, ?_, ?_⟩
  · intro h0
    rw [h0] at hlen3
    simp at hlen3
    omega
  · intro e he
    obtain ⟨k, hk⟩ := List.mem_iff_getElem?.mp he
    have hklt : k < length3 := by
      rw [← hlen3]
      by_contra hge
      rw [List.getElem?_eq_none (by omega)] at hk
      simp at hk
    obtain ⟨e', he', -, henc⟩ := hget k hklt
    rw [hk] at he'
    simp only [Option.some.injEq] at he'
    rw [he', henc]
    exact pngEncode_ne_none_of_write env k e'.img (hfail k)

/-- C19 fails: when `png.Encode` fails (a raster of width 0, or an output on
which every write fails) `saveImagesFromArray` returns `nil` all the same, the
error of `png.Encode` being dropped; the error of `zw.Create` is returned. -/
theorem saveImagesFromArray_encode_error_swallowed :
    (saveImagesFromArray exactOps quietEnv [1] 0 1 1 123).result = .ok () ∧
    (saveImagesFromArray exactOps quietEnv [1] 0 1 1 123).entries.map
        (fun e => (e.name, e.encodeErr))
      = [("image.00000.png", some "png: invalid format: invalid image size")] ∧
    (saveImagesFromArray exactOps failingWriteEnv [0, 1] 1 1 2 123).result = .ok () ∧
    (saveImagesFromArray exactOps failingWriteEnv [0, 1] 1 1 2 123).entries.map
        (fun e => (e.name, e.encodeErr))
      = [("image.00000.png", some "write failed"), ("image.00001.png", some "write failed")] ∧
    (saveImagesFromArray exactOps failingCreateEnv [0, 1] 1 1 2 123).result
      = .error (.error "create failed") := by
  refine ⟨by decide!, by decide!, by decide!, by decide!, by decide!⟩

/-! ## The constant volume -/

theorem foldl_minMaxStep_const {F : Type} (lt : F → F → Bool) (c : F) (l : List F)
    (hall : ∀ s ∈ l, s = c) : l.foldl (minMaxStep lt) (c, c) = (c, c) := by
  induction l with
  | nil => rfl
  | cons e l ih =>
    have he : e = c := hall e (List.mem_cons_self _ _)
    have hs : minMaxStep lt (c, c) e = (c, c) := by
      apply Prod.ext
      · rw [minMaxStep_fst, he]; simp
      · rw [minMaxStep_snd, he]; simp
    rw [List.foldl_cons, hs]
    exact ih (fun s hs' => hall s (List.mem_cons_of_mem _ hs'))

theorem getMinAndMax_const {F : Type} (lt : F → F → Bool) (c : F) (packedData : List F)
    (hne : packedData ≠ []) (hall : ∀ s ∈ packedData, s = c) :
    getMinAndMax lt packedData = some (c, c) := by
  cases packedData with
  | nil => exact absurd rfl hne
  | cons first rest =>
    have hf : first = c := hall first (List.mem_cons_self _ _)
    subst hf
    rw [getMinAndMax_cons, foldl_minMaxStep_const lt first (first :: rest) hall]

theorem indexSlice_mem {F : Type} (packedData : List F) (i : Int) (v : F)
    (h : indexSlice packedData i = some v) : v ∈ packedData := by
  unfold indexSlice at h
  split at h
  · simp at h
  · exact List.getElem?_mem h

/-- Every pixel of a completed raster of a constant volume holds the one value. -/
theorem pixels_of_filled_const {F : Type} (ops : FloatOps F) (packedData : List F)
    (width height permutation : Int) (min max c : F) (length1 length2 d : Nat) (img : Gray)
    (hfill : RasterFilled ops packedData width height permutation min max length1 length2 d
      (length2 * length1) img)
    (hread : SliceReadable packedData width height permutation length1 length2 d)
    (hall : ∀ s ∈ packedData, s = c) :
    ∀ p ∈ img.pix, p = ops.toUint8 (normalize ops min max c) := by
  obtain ⟨-, -, hlen, hpix⟩ := hfill
  intro p hp
  obtain ⟨o, ho⟩ := List.mem_iff_getElem?.mp hp
  have holt : o < length1 * length2 := by
    rw [← hlen]
    by_contra hge
    rw [List.getElem?_eq_none (by omega)] at ho
    simp at ho
  have h1pos : 0 < length1 := by
    rcases Nat.eq_zero_or_pos length1 with h0 | h0
    · rw [h0] at holt; simp at holt
    · exact h0
  have hx : o % length1 < length1 := Nat.mod_lt _ h1pos
  have hy : o / length1 < length2 := by
    rw [Nat.div_lt_iff_lt_mul h1pos, Nat.mul_comm]
    exact holt
  obtain ⟨i, v, hg, hv⟩ := hread (o % length1) (o / length1) hx hy
  have hvc : v = c := hall v (indexSlice_mem packedData i v hv)
  have := hpix o (by rw [Nat.mul_comm]; exact holt) i v hg hv
  rw [ho, hvc] at this
  exact Option.some.inj this

theorem saveImagesFromArray_const_nat {F : Type} (ops : FloatOps F) (env : OutputEnv)
    (packedData : List F) (c : F) (hall : ∀ s ∈ packedData, s = c)
    (permutation : Int) (hp : permutation ∈ validPermutations)
    (width height depth : Nat) (hw : 0 < width) (hh : 0 < height) (hd : 0 < depth)
    (hlen : packedData.length = width * height * depth)
    (hcreate : env.osCreate = none) (hzw : ∀ d, env.zwCreate d = none) :
    (saveImagesFromArray ops env packedData width height depth permutation).result = .ok () ∧
    (saveImagesFromArray ops env packedData width height depth permutation).entries ≠ [] ∧
    ∀ e ∈ (saveImagesFromArray ops env packedData width height depth permutation).entries,
      ∀ p ∈ e.img.pix, p = ops.toUint8 (normalize ops c c c) := by
  obtain ⟨min, max, length1, length2, length3, entries, hmm, hl, hrun, hnames, hread, hget⟩ :=
    saveImagesFromArray_run ops env packedData permutation hp width height depth hw hh hd hlen
      hcreate hzw
  have hne : packedData ≠ [] := by
    intro h0
    rw [h0] at hlen
    have : 0 < width * height * depth := Nat.mul_pos (Nat.mul_pos hw hh) hd
    simp at hlen
    omega
  have hcc := getMinAndMax_const ops.lt c packedData hne hall
  rw [hmm] at hcc
  simp only [Option.some.injEq, Prod.mk.injEq] at hcc
  obtain ⟨hmin, hmax⟩ := hcc
  have hlen3 : entries.length = length3 := by simpa using congrArg List.length hnames
  have hpos3 : 0 < length3 := by
    rcases mem_validPermutations.mp hp with rfl | rfl | rfl | rfl | rfl | rfl <;>
      simp only [permutedLengths, Option.some.injEq, Prod.mk.injEq, Nat.cast_inj] at hl <;>
      norm_num at hl <;>
      omega
  have hE : (saveImagesFromArray ops env packedData width height depth permutation).entries
      = entries := by rw [hrun]
  have hR : (saveImagesFromArray ops env packedData width height depth permutation).result
      = .ok () := by rw [hrun]
  rw [hE]
  refine ⟨hR, ?_, ?_⟩
  · intro h0
    rw [h0] at hlen3
    simp at hlen3
    omega
  · intro e he
    obtain ⟨k, hk⟩ := List.mem_iff_getElem?.mp he
    have hklt : k < length3 := by
      rw [← hlen3]
      by_contra hge
      rw [List.getElem?_eq_none (by omega)] at hk
      simp at hk
    obtain ⟨e', he', hfill, -⟩ := hget k hklt
    rw [hk] at he'
    simp only [Option.some.injEq] at he'
    rw [he']
    rw [hmin, hmax] at hfill
    exact pixels_of_filled_const ops packedData width height permutation c c c
      length1 length2 k e'.img hfill (hread k hklt) hall

theorem sliceLoop_of_render {F : Type} (ops : FloatOps F) (env : OutputEnv)
    (packedData : List F) (width height permutation : Int) (min max : F)
    (length1 length2 : Int) (imgOf : Nat → Gray) (ds : List Nat) (written : List Entry)
    (hrender : ∀ d ∈ ds, renderSlice ops packedData width height permutation min max
      length1 length2 d = .ok (imgOf d))
    (hzw : ∀ d ∈ ds, env.zwCreate d = none) :
    sliceLoop ops env packedData width height permutation min max length1 length2 ds written
      = { result := .ok (),
          entries := written ++ ds.map (fun d =>
            { name := entryName d, img := imgOf d, encodeErr := pngEncode env d (imgOf d) }) } := by
  induction ds generalizing written with
  | nil => simp [sliceLoop]
  | cons d rest ih =>
    have h1 := hrender d (List.mem_cons_self _ _)
    have h2 := hzw d (List.mem_cons_self _ _)
    simp only [sliceLoop, h1, h2]
    rw [ih _ (fun d' hd' => hrender d' (List.mem_cons_of_mem _ hd'))
      (fun d' hd' => hzw d' (List.mem_cons_of_mem _ hd'))]
    simp

theorem renderSlice_of_nonpos {F : Type} (ops : FloatOps F) (packedData : List F)
    (width height permutation : Int) (min max : F) (length1 length2 : Int) (d : Nat)
    (h : length2 ≤ 0) :
    renderSlice ops packedData width height permutation min max length1 length2 d
      = .ok (newGray (imageRect 0 0 length1 length2)) := by
  have e : length2.toNat = 0 := Int.toNat_eq_zero.mpr h
  simp only [renderSlice, e, List.range_zero, List.foldlM_nil]
  rfl

theorem newGray_pix_zero (r : Rectangle) : ∀ p ∈ (newGray r).pix, p = 0 := by
  intro p hp
  exact List.eq_of_mem_replicate hp

theorem permutedLengths_int (permutation : Int) (hp : permutation ∈ validPermutations)
    (width height depth : Int) :
    ∃ length1 length2 length3 : Int,
      permutedLengths width height depth permutation = some (length1, length2, length3) ∧
      length1 * length2 * length3 = width * height * depth ∧
      (0 < length1 → 0 < length2 → 0 < length3 → 0 < width ∧ 0 < height ∧ 0 < depth) := by
  rcases mem_validPermutations.mp hp with rfl | rfl | rfl | rfl | rfl | rfl
  · exact ⟨width, height, depth, by simp [permutedLengths], by ring, fun a b c => ⟨a, b, c⟩⟩
  · exact ⟨width, depth, height, by simp [permutedLengths], by ring, fun a b c => ⟨a, c, b⟩⟩
  · exact ⟨height, width, depth, by simp [permutedLengths], by ring, fun a b c => ⟨b, a, c⟩⟩
  · exact ⟨height, depth, width, by simp [permutedLengths], by ring, fun a b c => ⟨c, a, b⟩⟩
  · exact ⟨depth, width, height, by simp [permutedLengths], by ring, fun a b c => ⟨b, c, a⟩⟩
  · exact ⟨depth, height, width, by simp [permutedLengths], by ring, fun a b c => ⟨c, b, a⟩⟩

/-- C18. For every non-empty volume whose samples are all the same `c`, every
valid permutation code and dimensions with `len(packedData) == width*height*depth`,
on an output side that accepts the file and every entry, `saveImagesFromArray`
returns `nil` and all pixels of all slices carry one value; for positive
dimensions that value is the conversion of `(c - c)/(c - c)*255`, with
`(min, max) = (c, c)`, and there is at least one slice. -/
theorem saveImagesFromArray_constant {F : Type} (ops : FloatOps F) (env : OutputEnv)
    (packedData : List F) (c : F) (hne : packedData ≠ []) (hall : ∀ s ∈ packedData, s = c)
    (permutation : Int) (hp : permutation ∈ validPermutations)
    (width height depth : Int) (hlen : (packedData.length : Int) = width * height * depth)
    (hcreate : env.osCreate = none) (hzw : ∀ d, env.zwCreate d = none) :
    getMinAndMax ops.lt packedData = some (c, c) ∧
    (saveImagesFromArray ops env packedData width height depth permutation).result = .ok () ∧
    ∃ u : Fin 256,
      (∀ e ∈ (saveImagesFromArray ops env packedData width height depth permutation).entries,
        ∀ p ∈ e.img.pix, p = u) ∧
      (0 < width → 0 < height → 0 < depth →
        u = ops.toUint8 (normalize ops c c c) ∧
        (saveImagesFromArray ops env packedData width height depth permutation).entries
          ≠ []) := by
  have hcc := getMinAndMax_const ops.lt c packedData hne hall
  refine ⟨hcc, ?_⟩
  by_cases hposAll : 0 < width ∧ 0 < height ∧ 0 < depth
  · obtain ⟨hw, hh, hd⟩ := hposAll
    lift width to Nat using le_of_lt hw
    lift height to Nat using le_of_lt hh
    lift depth to Nat using le_of_lt hd
    have hlen' : packedData.length = width * height * depth := by exact_mod_cast hlen
    obtain ⟨hR, hN, hP⟩ := saveImagesFromArray_const_nat ops env packedData c hall permutation hp
      width height depth (by exact_mod_cast hw) (by exact_mod_cast hh) (by exact_mod_cast hd)
      hlen' hcreate hzw
    exact ⟨hR, ops.toUint8 (normalize ops c c c), hP, fun _ _ _ => ⟨rfl, hN⟩⟩
  · obtain ⟨length1, length2, length3, hl, hprod, hsign⟩ :=
      permutedLengths_int permutation hp width height depth
    have hpospd : (0 : Int) < packedData.length := by
      exact_mod_cast List.length_pos.mpr hne
    have hprodpos : 0 < length1 * length2 * length3 := by rw [hprod, ← hlen]; exact hpospd
    have hrun0 : saveImagesFromArray ops env packedData width height depth permutation
        = sliceLoop ops env packedData width height permutation c c length1 length2
            (List.range length3.toNat) [] := by
      simp only [saveImagesFromArray, hcreate, hcc, hl]
    by_cases h3 : 0 < length3
    · have h12 : 0 < length1 * length2 := pos_of_mul_pos_left hprodpos (le_of_lt h3)
      rcases mul_pos_iff.mp h12 with ⟨h1, h2⟩ | ⟨h1, h2⟩
      · exact absurd (hsign h1 h2 h3) hposAll
      · have hloop := sliceLoop_of_render ops env packedData width height permutation c c
          length1 length2 (fun _ => newGray (imageRect 0 0 length1 length2))
          (List.range length3.toNat) []
          (fun d _ => renderSlice_of_nonpos ops packedData width height permutation c c
            length1 length2 d (le_of_lt h2))
          (fun d _ => hzw d)
        rw [hrun0, hloop]
        refine ⟨rfl, 0, ?_, fun hw hh hd => absurd ⟨hw, hh, hd⟩ hposAll⟩
        intro e he
        simp only [List.nil_append, List.mem_map] at he
        obtain ⟨d, -, rfl⟩ := he
        exact newGray_pix_zero _
    · have e3 : length3.toNat = 0 := Int.toNat_eq_zero.mpr (not_lt.mp h3)
      rw [hrun0, e3]
      refine ⟨rfl, 0, ?_, fun hw hh hd => absurd ⟨hw, hh, hd⟩ hposAll⟩
      intro e he
      simp [sliceLoop] at he

/-- The statement of C18 on four samples equal to 7, as a 2x1x2 volume, code 213. -/
theorem saveImagesFromArray_constant_witness :
    ([7, 7, 7, 7] : List ℚ) ≠ [] ∧ (∀ s ∈ ([7, 7, 7, 7] : List ℚ), s = 7) ∧
    (213 : Int) ∈ validPermutations ∧
    ((([7, 7, 7, 7] : List ℚ).length : Nat) : Int) = 2 * 1 * 2 ∧
    quietEnv.osCreate = none ∧ (∀ d, quietEnv.zwCreate d = none) ∧
    (getMinAndMax exactOps.lt [7, 7, 7, 7] = some (7, 7) ∧
    (saveImagesFromArray exactOps quietEnv [7, 7, 7, 7] 2 1 2 213).result = .ok () ∧
    ∃ u : Fin 256,
      (∀ e ∈ (saveImagesFromArray exactOps quietEnv [7, 7, 7, 7] 2 1 2 213).entries,
        ∀ p ∈ e.img.pix, p = u) ∧
      ((0 : Int) < 2 → (0 : Int) < 1 → (0 : Int) < 2 →
        u = exactOps.toUint8 (normalize exactOps 7 7 7) ∧
        (saveImagesFromArray exactOps quietEnv [7, 7, 7, 7] 2 1 2 213).entries ≠ [])) :=
  ⟨by decide, by simp, by decide, by decide, rfl, fun _ => rfl,
    saveImagesFromArray_constant exactOps quietEnv [7, 7, 7, 7] 7 (by decide) (by simp) 213
      (by decide) 2 1 2 (by decide) rfl (fun _ => rfl)⟩

/-! ## Invalid permutation codes -/

theorem mainAcceptsPermutation_iff (permutation : Int) :
    mainAcceptsPermutation permutation = true ↔ permutation ∈ validPermutations := by
  rw [mem_validPermutations]
  unfold mainAcceptsPermutation
  constructor
  · intro h
    split at h
    · left; assumption
    split at h
    · right; left; assumption
    split at h
    · right; right; left; assumption
    split at h
    · right; right; right; left; assumption
    split at h
    · right; right; right; right; left; assumption
    split at h
    · right; right; right; right; right; assumption
    · exact absurd h (by decide)
  · rintro (h | h | h | h | h | h) <;> subst h <;> decide

theorem saveImagesFromArray_create_error {F : Type} (ops : FloatOps F) (env : OutputEnv)
    (err : String) (hcreate : env.osCreate = some err) (packedData : List F)
    (width height depth permutation : Int) :
    saveImagesFromArray ops env packedData width height depth permutation
      = { result := .error (.error err), entries := [] } := by
  simp only [saveImagesFromArray, hcreate]

/-- C9, amended. For every volume, every triple of dimensions and every code that
is not one of the six valid ones, `saveImagesFromArray` writes no archive entry.
When the output file cannot be created it returns that error; otherwise it
returns the invalid-permutation error on a non-empty volume and panics on the
empty one, in `getMinAndMax`, as it does on the empty volume for every code.
`main` lets no such code through to the call. -/
theorem saveImagesFromArray_invalid_outcome {F : Type} (ops : FloatOps F) (env : OutputEnv)
    (packedData : List F) (width height depth permutation : Int)
    (hp : permutation ∉ validPermutations) :
    (saveImagesFromArray ops env packedData width height depth permutation).entries = [] ∧
    (∀ err : String, env.osCreate = some err →
      (saveImagesFromArray ops env packedData width height depth permutation).result
        = .error (.error err)) ∧
    (env.osCreate = none → packedData ≠ [] →
      (saveImagesFromArray ops env packedData width height depth permutation).result
        = .error (.error invalidPermutationMessage)) ∧
    (env.osCreate = none → packedData = [] →
      (saveImagesFromArray ops env packedData width height depth permutation).result
        = .error .panic) ∧
    (∀ code : Int, env.osCreate = none →
      (saveImagesFromArray ops env ([] : List F) width height depth code).result
        = .error .panic) ∧
    mainAcceptsPermutation permutation = false := by
  have hmain : mainAcceptsPermutation permutation = false := by
    cases hm : mainAcceptsPermutation permutation with
    | false => rfl
    | true => exact absurd ((mainAcceptsPermutation_iff permutation).mp hm) hp
  have hnil : ∀ code : Int, env.osCreate = none →
      (saveImagesFromArray ops env ([] : List F) width height depth code).result
        = .error .panic := by
    intro code hc
    rw [saveImagesFromArray_nil ops env hc]
  cases hc : env.osCreate with
  | some e =>
    rw [saveImagesFromArray_create_error ops env e hc]
    refine ⟨rfl, ?_, ?_, ?_, ?_, hmain⟩
    · intro err herr
      cases herr
      rfl
    · intro h; cases h
    · intro h; cases h
    · intro code h; cases h
  | none =>
    cases packedData with
    | nil =>
      rw [saveImagesFromArray_nil ops env hc]
      refine ⟨rfl, ?_, ?_, ?_, ?_, hmain⟩
      · intro err herr; cases herr
      · intro _ h; exact absurd rfl h
      · intro _ _; rfl
      · intro code _; exact hnil code hc
    | cons first rest =>
      rw [saveImagesFromArray_invalid_permutation ops env hc first rest _ _ _ _ hp]
      refine ⟨rfl, ?_, ?_, ?_, ?_, hmain⟩
      · intro err herr; cases herr
      · intro _ _; rfl
      · intro _ h; cases h
      · intro code _; exact hnil code hc

/-- The statement of C9, amended, on the one-sample volume `[5]` with the code `0`. -/
theorem saveImagesFromArray_invalid_outcome_witness :
    (0 : Int) ∉ validPermutations ∧
    (saveImagesFromArray exactOps quietEnv [5] 1 1 1 0).entries = [] ∧
    (∀ err : String, quietEnv.osCreate = some err →
      (saveImagesFromArray exactOps quietEnv [5] 1 1 1 0).result = .error (.error err)) ∧
    (quietEnv.osCreate = none → ([5] : List ℚ) ≠ [] →
      (saveImagesFromArray exactOps quietEnv [5] 1 1 1 0).result
        = .error (.error invalidPermutationMessage)) ∧
    (quietEnv.osCreate = none → ([5] : List ℚ) = [] →
      (saveImagesFromArray exactOps quietEnv [5] 1 1 1 0).result = .error .panic) ∧
    (∀ code : Int, quietEnv.osCreate = none →
      (saveImagesFromArray exactOps quietEnv ([] : List ℚ) 1 1 1 code).result
        = .error .panic) ∧
    mainAcceptsPermutation 0 = false :=
  ⟨by decide, saveImagesFromArray_invalid_outcome exactOps quietEnv [5] 1 1 1 0 (by decide)⟩

/-! ## The normalisation on volumes with infinite samples -/

theorem Sample.lt_trans_false {a b c : Sample} (hb : b ≠ .nan)
    (h1 : Sample.lt b a = false) (h2 : Sample.lt c b = false) : Sample.lt c a = false := by
  cases a <;> cases b <;> cases c <;> simp_all [Sample.lt]
  all_goals linarith

theorem Sample.lt_irrefl (a : Sample) : Sample.lt a a = false := by
  cases a <;> simp [Sample.lt]

theorem Sample.lt_asymm {a b : Sample} (h : Sample.lt a b = true) : Sample.lt b a = false := by
  cases a <;> cases b <;> simp_all [Sample.lt]
  all_goals linarith

theorem foldl_minMaxStep_mem {F : Type} (lt : F → F → Bool) (l : List F) (acc : F × F) :
    ((l.foldl (minMaxStep lt) acc).1 = acc.1 ∨ (l.foldl (minMaxStep lt) acc).1 ∈ l) ∧
    ((l.foldl (minMaxStep lt) acc).2 = acc.2 ∨ (l.foldl (minMaxStep lt) acc).2 ∈ l) := by
  induction l generalizing acc with
  | nil => exact ⟨Or.inl rfl, Or.inl rfl⟩
  | cons e l ih =>
    rw [List.foldl_cons]
    obtain ⟨i1, i2⟩ := ih (minMaxStep lt acc e)
    constructor
    · rcases i1 with h | h
      · rw [h, minMaxStep_fst]
        split
        · exact Or.inr (List.mem_cons_self _ _)
        · exact Or.inl rfl
      · exact Or.inr (List.mem_cons_of_mem _ h)
    · rcases i2 with h | h
      · rw [h, minMaxStep_snd]
        split
        · exact Or.inr (List.mem_cons_self _ _)
        · exact Or.inl rfl
      · exact Or.inr (List.mem_cons_of_mem _ h)

theorem foldl_minMaxStep_sample (l : List Sample) (acc : Sample × Sample)
    (hl : Sample.nan ∉ l) (h1 : acc.1 ≠ .nan) (h2 : acc.2 ≠ .nan) :
    (l.foldl (minMaxStep Sample.lt) acc).1 ≠ .nan ∧
    (l.foldl (minMaxStep Sample.lt) acc).2 ≠ .nan ∧
    Sample.lt acc.1 (l.foldl (minMaxStep Sample.lt) acc).1 = false ∧
    Sample.lt (l.foldl (minMaxStep Sample.lt) acc).2 acc.2 = false ∧
    ∀ s ∈ l, Sample.lt s (l.foldl (minMaxStep Sample.lt) acc).1 = false ∧
      Sample.lt (l.foldl (minMaxStep Sample.lt) acc).2 s = false := by
  induction l generalizing acc with
  | nil => exact ⟨h1, h2, Sample.lt_irrefl _, Sample.lt_irrefl _, by simp⟩
  | cons e l ih =>
    have he : e ≠ .nan := fun h => hl (h ▸ List.mem_cons_self _ _)
    have hl2 : Sample.nan ∉ l := fun h => hl (List.mem_cons_of_mem _ h)
    have k1 : (minMaxStep Sample.lt acc e).1 ≠ .nan ∧
        Sample.lt acc.1 (minMaxStep Sample.lt acc e).1 = false ∧
        Sample.lt e (minMaxStep Sample.lt acc e).1 = false := by
      rw [minMaxStep_fst]
      cases hb : Sample.lt e acc.1 with
      | true => exact ⟨he, Sample.lt_asymm hb, Sample.lt_irrefl _⟩
      | false => exact ⟨h1, Sample.lt_irrefl _, hb⟩
    have k2 : (minMaxStep Sample.lt acc e).2 ≠ .nan ∧
        Sample.lt (minMaxStep Sample.lt acc e).2 acc.2 = false ∧
        Sample.lt (minMaxStep Sample.lt acc e).2 e = false := by
      rw [minMaxStep_snd]
      cases hb : Sample.lt acc.2 e with
      | true => exact ⟨he, Sample.lt_asymm hb, Sample.lt_irrefl _⟩
      | false => exact ⟨h2, Sample.lt_irrefl _, hb⟩
    obtain ⟨i1, i2, i3, i4, i5⟩ := ih (minMaxStep Sample.lt acc e) hl2 k1.1 k2.1
    rw [List.foldl_cons]
    refine ⟨i1, i2, Sample.lt_trans_false k1.1 i3 k1.2.1, Sample.lt_trans_false k2.1 k2.2.1 i4, ?_⟩
    intro s hs
    rcases List.mem_cons.mp hs with rfl | hs
    · exact ⟨Sample.lt_trans_false k1.1 i3 k1.2.2, Sample.lt_trans_false k2.1 k2.2.2 i4⟩
    · exact i5 s hs

/-- On a volume without NaN, `getMinAndMax` returns two samples of the volume
that no sample lies below, respectively above. -/
theorem getMinAndMax_sample_bounds (packedData : List Sample) (min max : Sample)
    (hnan : Sample.nan ∉ packedData)
    (h : getMinAndMax Sample.lt packedData = some (min, max)) :
    min ∈ packedData ∧ max ∈ packedData ∧
    ∀ s ∈ packedData, Sample.lt s min = false ∧ Sample.lt max s = false := by
  cases packedData with
  | nil => simp [getMinAndMax_nil] at h
  | cons first rest =>
    rw [getMinAndMax_cons] at h
    simp only [Option.some.injEq] at h
    have hf : first ≠ .nan := fun hh => hnan (hh ▸ List.mem_cons_self _ _)
    obtain ⟨-, -, -, -, i5⟩ :=
      foldl_minMaxStep_sample (first :: rest) (first, first) hnan hf hf
    obtain ⟨m1, m2⟩ := foldl_minMaxStep_mem Sample.lt (first :: rest) (first, first)
    rw [h] at i5 m1 m2
    refine ⟨?_, ?_, i5⟩
    · rcases m1 with h | h
      · have h0 : min = first := h
        rw [h0]
        exact List.mem_cons_self _ _
      · exact h
    · rcases m2 with h | h
      · have h0 : max = first := h
        rw [h0]
        exact List.mem_cons_self _ _
      · exact h

theorem normalize_sampleOps_finite (special : Sample → Fin 256) (a b c : ℚ) (h : a < b) :
    normalize (sampleOps special) (.finite a) (.finite b) (.finite c)
      = .finite (normalize exactOps a b c) := by
  have hne : b - a ≠ 0 := by linarith
  simp [normalize, sampleOps, exactOps, Sample.sub, Sample.div, Sample.mul, hne]

/-- The normalisation on a volume of exact values without NaN on which
`getMinAndMax` returns `min < max`: the normalised value of a sample `v` is a NaN
when `min` is `-Inf` or `v` is `+Inf`, and lies in `[0, 255]` otherwise, which is
the case of every sample when all samples are finite. -/
theorem normalize_sample_cases (special : Sample → Fin 256) (packedData : List Sample)
    (min max : Sample) (hnan : Sample.nan ∉ packedData)
    (hmm : getMinAndMax Sample.lt packedData = some (min, max))
    (hlt : Sample.lt min max = true) (v : Sample) (hv : v ∈ packedData) :
    ((∀ s ∈ packedData, ∃ q : ℚ, s = .finite q) → NormalizedInRange special min max v) ∧
    (min = .negInf ∨ v = .posInf → normalize (sampleOps special) min max v = .nan) ∧
    (¬ (min = .negInf ∨ v = .posInf) → NormalizedInRange special min max v) := by
  obtain ⟨hmin, hmax, hb⟩ := getMinAndMax_sample_bounds packedData min max hnan hmm
  obtain ⟨hlo, hhi⟩ := hb v hv
  have hmin0 : min ≠ .nan := fun h => hnan (h ▸ hmin)
  have hmax0 : max ≠ .nan := fun h => hnan (h ▸ hmax)
  have hv0 : v ≠ .nan := fun h => hnan (h ▸ hv)
  have key : ¬ (min = .negInf ∨ v = .posInf) → NormalizedInRange special min max v := by
    intro hfin
    simp only [not_or] at hfin
    obtain ⟨hm, hvp⟩ := hfin
    cases min with
    | nan => exact absurd rfl hmin0
    | negInf => exact absurd rfl hm
    | posInf => simp [Sample.lt] at hlt
    | finite m =>
      cases v with
      | nan => exact absurd rfl hv0
      | posInf => exact absurd rfl hvp
      | negInf => simp [Sample.lt] at hlo
      | finite q =>
        have hmq : m ≤ q := by simpa [Sample.lt] using hlo
        cases max with
        | nan => exact absurd rfl hmax0
        | negInf => simp [Sample.lt] at hlt
        | posInf =>
          refine ⟨0, ?_, le_refl _, by norm_num, ?_⟩
          · simp [normalize, sampleOps, Sample.sub, Sample.div, Sample.mul]
          · have e : normalize (sampleOps special) (.finite m) .posInf (.finite q)
                = .finite 0 := by
              simp [normalize, sampleOps, Sample.sub, Sample.div, Sample.mul]
            rw [e]
            exact toUint8_exactOps_of_range 0 (le_refl _) (by norm_num)
        | finite M =>
          have hmM : m < M := by simpa [Sample.lt] using hlt
          have hqM : q ≤ M := by simpa [Sample.lt] using hhi
          obtain ⟨a0, a1⟩ := normalize_exactOps_range m M q hmM hmq hqM
          refine ⟨normalize exactOps m M q, normalize_sampleOps_finite special m M q hmM,
            a0, a1, ?_⟩
          rw [normalize_sampleOps_finite special m M q hmM]
          exact toUint8_exactOps_of_range _ a0 (by linarith)
  refine ⟨?_, ?_, key⟩
  · intro hall
    apply key
    rintro (h | h)
    · obtain ⟨q, hq⟩ := hall min hmin
      rw [hq] at h
      cases h
    · obtain ⟨q, hq⟩ := hall v hv
      rw [hq] at h
      cases h
  · rintro (h | h)
    · subst h
      cases max with
      | nan => exact absurd rfl hmax0
      | negInf => simp [Sample.lt] at hlt
      | posInf =>
        cases v <;> simp [normalize, sampleOps, Sample.sub, Sample.div, Sample.mul]
      | finite M =>
        cases v <;> simp [normalize, sampleOps, Sample.sub, Sample.div, Sample.mul]
    · subst h
      cases max with
      | nan => exact absurd rfl hmax0
      | negInf => simp [Sample.lt] at hlt
      | finite M => cases min <;> simp [Sample.lt] at hhi
      | posInf =>
        cases min with
        | nan => exact absurd rfl hmin0
        | posInf => simp [Sample.lt] at hlt
        | negInf => simp [normalize, sampleOps, Sample.sub, Sample.div, Sample.mul]
        | finite m => simp [normalize, sampleOps, Sample.sub, Sample.div, Sample.mul]

/-! ## Bit patterns and exact values -/

theorem f32Magnitude_nonneg (e m : Nat) : 0 ≤ f32Magnitude e m := by
  unfold f32Magnitude
  split <;> positivity

theorem f32Magnitude_zero : f32Magnitude 0 0 = 0 := by
  simp [f32Magnitude]

theorem f32Magnitude_lt {e1 m1 e2 m2 : Nat} (h1 : m1 < 2 ^ 23)
    (h : e1 < e2 ∨ (e1 = e2 ∧ m1 < m2)) : f32Magnitude e1 m1 < f32Magnitude e2 m2 := by
  have hm1 : (m1 : ℚ) < 2 ^ 23 := by exact_mod_cast h1
  have hm1' : (0 : ℚ) ≤ m1 := Nat.cast_nonneg _
  have hm2' : (0 : ℚ) ≤ m2 := Nat.cast_nonneg _
  rcases h with h | ⟨rfl, h⟩
  · have he2 : e2 ≠ 0 := by omega
    have hpow : (2 : ℚ) ^ (e1 + 1) ≤ 2 ^ e2 :=
      pow_le_pow_right₀ (by norm_num) (by omega)
    have hp1 : (0 : ℚ) < 2 ^ e1 := by positivity
    have hp2 : (0 : ℚ) < 2 ^ e2 := by positivity
    have upper : f32Magnitude e1 m1 < 2 ^ 24 * 2 ^ e1 / 2 ^ 150 := by
      unfold f32Magnitude
      split
      · next h0 =>
        subst h0
        rw [div_lt_div_iff₀ (by positivity) (by positivity)]
        norm_num
        nlinarith
      · rw [div_lt_div_iff_of_pos_right (by positivity)]
        push_cast
        nlinarith
    have lower : (2 : ℚ) ^ 23 * 2 ^ e2 / 2 ^ 150 ≤ f32Magnitude e2 m2 := by
      unfold f32Magnitude
      rw [if_neg he2, div_le_div_iff_of_pos_right (by positivity)]
      push_cast
      nlinarith
    have middle : (2 : ℚ) ^ 24 * 2 ^ e1 / 2 ^ 150 ≤ 2 ^ 23 * 2 ^ e2 / 2 ^ 150 := by
      rw [div_le_div_iff_of_pos_right (by positivity)]
      have e : (2 : ℚ) ^ 24 * 2 ^ e1 = 2 ^ 23 * 2 ^ (e1 + 1) := by ring
      rw [e]
      exact mul_le_mul_of_nonneg_left hpow (by positivity)
    linarith
  · have hm : (m1 : ℚ) < m2 := by exact_mod_cast h
    have hp1 : (0 : ℚ) < 2 ^ e1 := by positivity
    unfold f32Magnitude
    split
    · rw [div_lt_div_iff_of_pos_right (by positivity)]
      exact hm
    · rw [div_lt_div_iff_of_pos_right (by positivity)]
      push_cast
      nlinarith

/-- The magnitude is strictly increasing in the low 31 bits of the pattern. -/
theorem f32Magnitude_strictMono :
    StrictMono (fun k : Nat => f32Magnitude (k / 2 ^ 23) (k % 2 ^ 23)) := by
  intro a b hab
  apply f32Magnitude_lt
  · exact Nat.mod_lt _ (by norm_num)
  · by_cases h : a / 2 ^ 23 = b / 2 ^ 23
    · right
      refine ⟨h, ?_⟩
      have ha := Nat.div_add_mod a (2 ^ 23)
      have hb := Nat.div_add_mod b (2 ^ 23)
      rw [h] at ha
      omega
    · left
      have hle : a / 2 ^ 23 ≤ b / 2 ^ 23 := Nat.div_le_div_right (le_of_lt hab)
      omega

theorem f32Magnitude_pos_iff (k : Nat) :
    0 < f32Magnitude (k / 2 ^ 23) (k % 2 ^ 23) ↔ 0 < k := by
  have h0 : f32Magnitude (0 / 2 ^ 23) (0 % 2 ^ 23) = 0 := by
    simp [f32Magnitude]
  constructor
  · intro h
    rcases Nat.eq_zero_or_pos k with hk | hk
    · rw [hk, h0] at h
      exact absurd h (lt_irrefl _)
    · exact hk
  · intro h
    have := f32Magnitude_strictMono h
    simp only at this
    rw [h0] at this
    exact this

theorem f32Value_of_nan {b : Nat} (h : f32IsNaN b = true) : f32Value b = .nan := by
  have h1 : 0x7F800000 < b % 2 ^ 31 := by simpa [f32IsNaN] using h
  have e : b / 2 ^ 23 % 256 = 255 := by omega
  have m : b % 2 ^ 23 ≠ 0 := by omega
  unfold f32Value
  rw [if_pos e, if_neg m]

theorem f32Value_eq_nan_iff (b : Nat) : f32Value b = .nan ↔ f32IsNaN b = true := by
  constructor
  · intro h
    unfold f32Value at h
    split at h
    · next e =>
      split at h
      · split at h <;> cases h
      · next m =>
        have : 0x7F800000 < b % 2 ^ 31 := by omega
        simpa [f32IsNaN] using this
    · split at h <;> cases h
  · exact f32Value_of_nan

/-- The value of a pattern that is not a NaN, in terms of its sign bit and of its
low 31 bits `k`: an infinity when `k` is `0x7F800000`, a finite number below. -/
theorem f32Value_of_notNaN {b : Nat} (h : f32IsNaN b = false) :
    b % 2 ^ 31 ≤ 0x7F800000 ∧
    (b % 2 ^ 31 = 0x7F800000 →
      f32Value b = if b / 2 ^ 31 % 2 = 1 then .negInf else .posInf) ∧
    (b % 2 ^ 31 < 0x7F800000 →
      f32Value b =
        if b / 2 ^ 31 % 2 = 1 then
          .finite (-f32Magnitude (b % 2 ^ 31 / 2 ^ 23) (b % 2 ^ 31 % 2 ^ 23))
        else .finite (f32Magnitude (b % 2 ^ 31 / 2 ^ 23) (b % 2 ^ 31 % 2 ^ 23))) := by
  have h1 : b % 2 ^ 31 ≤ 0x7F800000 := by
    have : ¬ (0x7F800000 < b % 2 ^ 31) := by simpa [f32IsNaN] using h
    omega
  refine ⟨h1, ?_, ?_⟩
  · intro hk
    have e : b / 2 ^ 23 % 256 = 255 := by omega
    have m : b % 2 ^ 23 = 0 := by omega
    unfold f32Value
    rw [if_pos e, if_pos m]
  · intro hk
    have e : b / 2 ^ 23 % 256 ≠ 255 := by omega
    have e1 : b % 2 ^ 31 / 2 ^ 23 = b / 2 ^ 23 % 256 := by omega
    have e2 : b % 2 ^ 31 % 2 ^ 23 = b % 2 ^ 23 := by omega
    rw [e1, e2]
    unfold f32Value
    rw [if_neg e]

/-- The comparison of `getMinAndMax` on bit patterns is the comparison of the
exact values. -/
theorem f32Lt_eq_lt_f32Value (a b : Nat) :
    f32Lt a b = Sample.lt (f32Value a) (f32Value b) := by
  cases ha : f32IsNaN a with
  | true =>
    rw [f32Value_of_nan ha]
    simp [f32Lt, ha, Sample.lt]
  | false =>
    cases hb : f32IsNaN b with
    | true =>
      rw [f32Value_of_nan hb]
      cases f32Value a <;> simp [f32Lt, hb, Sample.lt]
    | false =>
      obtain ⟨a1, a2, a3⟩ := f32Value_of_notNaN ha
      obtain ⟨b1, b2, b3⟩ := f32Value_of_notNaN hb
      have hmono := f32Magnitude_strictMono
      have hposa := f32Magnitude_pos_iff (a % 2 ^ 31)
      have hposb := f32Magnitude_pos_iff (b % 2 ^ 31)
      have hnna := f32Magnitude_nonneg (a % 2 ^ 31 / 2 ^ 23) (a % 2 ^ 31 % 2 ^ 23)
      have hnnb := f32Magnitude_nonneg (b % 2 ^ 31 / 2 ^ 23) (b % 2 ^ 31 % 2 ^ 23)
      have hiff := hmono.lt_iff_lt (a := a % 2 ^ 31) (b := b % 2 ^ 31)
      have hiff2 := hmono.lt_iff_lt (a := b % 2 ^ 31) (b := a % 2 ^ 31)
      simp only at hiff hiff2
      simp only [f32Lt, ha, hb, Bool.not_false, Bool.true_and, f32Key]
      rcases Nat.lt_or_ge (a % 2 ^ 31) 0x7F800000 with hka | hka
      · rcases Nat.lt_or_ge (b % 2 ^ 31) 0x7F800000 with hkb | hkb
        · rw [a3 hka, b3 hkb]
          by_cases sa : a / 2 ^ 31 % 2 = 1 <;> by_cases sb : b / 2 ^ 31 % 2 = 1
          · simp only [sa, sb, if_true, Sample.lt]
            congr 1
            apply propext
            constructor
            · intro h
              have h0 : b % 2 ^ 31 < a % 2 ^ 31 := by omega
              have := hiff2.mpr h0
              linarith
            · intro h
              have h0 : f32Magnitude (b % 2 ^ 31 / 2 ^ 23) (b % 2 ^ 31 % 2 ^ 23)
                  < f32Magnitude (a % 2 ^ 31 / 2 ^ 23) (a % 2 ^ 31 % 2 ^ 23) := by linarith
              have := hiff2.mp h0
              omega
          · simp only [sa, sb, if_true, if_false, Sample.lt]
            congr 1
            apply propext
            constructor
            · intro h
              have : 0 < a % 2 ^ 31 ∨ 0 < b % 2 ^ 31 := by omega
              rcases this with h0 | h0
              · have := hposa.mpr h0
                linarith
              · have := hposb.mpr h0
                linarith
            · intro h
              have : 0 < f32Magnitude (a % 2 ^ 31 / 2 ^ 23) (a % 2 ^ 31 % 2 ^ 23) ∨
                  0 < f32Magnitude (b % 2 ^ 31 / 2 ^ 23) (b % 2 ^ 31 % 2 ^ 23) := by
                by_contra hc
                simp only [not_or, not_lt] at hc
                linarith
              rcases this with h0 | h0
              · have := hposa.mp h0
                omega
              · have := hposb.mp h0
                omega
          · simp only [sa, sb, if_true, if_false, Sample.lt]
            congr 1
            apply propext
            constructor
            · intro h
              omega
            · intro h
              linarith
          · simp only [sa, sb, if_false, Sample.lt]
            congr 1
            apply propext
            constructor
            · intro h
              have h0 : a % 2 ^ 31 < b % 2 ^ 31 := by omega
              exact hiff.mpr h0
            · intro h
              have := hiff.mp h
              omega
        · have hkb2 : b % 2 ^ 31 = 0x7F800000 := by omega
          rw [a3 hka, b2 hkb2]
          by_cases sa : a / 2 ^ 31 % 2 = 1 <;> by_cases sb : b / 2 ^ 31 % 2 = 1 <;>
            simp only [sa, sb, if_true, if_false, Sample.lt, decide_eq_true_eq,
              decide_eq_false_iff_not] <;> omega
      · have hka2 : a % 2 ^ 31 = 0x7F800000 := by omega
        rcases Nat.lt_or_ge (b % 2 ^ 31) 0x7F800000 with hkb | hkb
        · rw [a2 hka2, b3 hkb]
          by_cases sa : a / 2 ^ 31 % 2 = 1 <;> by_cases sb : b / 2 ^ 31 % 2 = 1 <;>
            simp only [sa, sb, if_true, if_false, Sample.lt, decide_eq_true_eq,
              decide_eq_false_iff_not] <;> omega
        · have hkb2 : b % 2 ^ 31 = 0x7F800000 := by omega
          rw [a2 hka2, b2 hkb2]
          by_cases sa : a / 2 ^ 31 % 2 = 1 <;> by_cases sb : b / 2 ^ 31 % 2 = 1 <;>
            simp only [sa, sb, if_true, if_false, Sample.lt, decide_eq_true_eq,
              decide_eq_false_iff_not] <;> omega

theorem foldl_minMaxStep_map {F G : Type} (f : F → G) (lt : F → F → Bool)
    (lt2 : G → G → Bool) (h : ∀ a b, lt2 (f a) (f b) = lt a b) (l : List F) (acc : F × F) :
    (l.map f).foldl (minMaxStep lt2) (f acc.1, f acc.2)
      = (f (l.foldl (minMaxStep lt) acc).1, f (l.foldl (minMaxStep lt) acc).2) := by
  induction l generalizing acc with
  | nil => rfl
  | cons e l ih =>
    rw [List.map_cons, List.foldl_cons, List.foldl_cons]
    have hs : minMaxStep lt2 (f acc.1, f acc.2) (f e)
        = (f (minMaxStep lt acc e).1, f (minMaxStep lt acc e).2) := by
      apply Prod.ext
      · simp only [minMaxStep_fst, h]
        split <;> rfl
      · simp only [minMaxStep_snd, h]
        split <;> rfl
    rw [hs]
    exact ih (minMaxStep lt acc e)

/-- The function `getMinAndMax` on bit patterns returns the patterns of what it
returns on the exact values. -/
theorem getMinAndMax_f32Value (packedData : List Nat) (min max : Nat)
    (h : getMinAndMax f32Lt packedData = some (min, max)) :
    getMinAndMax Sample.lt (packedData.map f32Value) = some (f32Value min, f32Value max) := by
  cases packedData with
  | nil => simp [getMinAndMax_nil] at h
  | cons first rest =>
    rw [getMinAndMax_cons] at h
    simp only [Option.some.injEq] at h
    rw [List.map_cons, getMinAndMax_cons, ← List.map_cons]
    have e := foldl_minMaxStep_map f32Value f32Lt Sample.lt
      (fun a b => (f32Lt_eq_lt_f32Value a b).symm) (first :: rest) (first, first)
    rw [e, h]

set_option maxRecDepth 8000 in
/-- C20, as stated, fails on a volume with an infinite sample: the twelve bytes
`00 00 80 FF 00 00 00 00 00 00 80 3F` are read as the volume `[-Inf, 0, 1]`, which holds no NaN and on which
`getMinAndMax` returns `min = -Inf < max = 1`; yet the normalised value of each of
its three samples is a NaN, which is no number of `[0, 255]`. -/
theorem normalize_infinite_counterexample :
    readFileToMemory id (.ok ⟨[0, 0, 128, 255, 0, 0, 0, 0, 0, 0, 128, 63],
        List.replicate 500 0⟩) false 0 = .ok [0xFF800000, 0, 0x3F800000] ∧
    (f32IsNaN 0xFF800000 = false ∧ f32IsNaN 0 = false ∧ f32IsNaN 0x3F800000 = false) ∧
    getMinAndMax f32Lt [0xFF800000, 0, 0x3F800000] = some (0xFF800000, 0x3F800000) ∧
    f32Lt 0xFF800000 0x3F800000 = true ∧
    (f32Value 0xFF800000 = Sample.negInf ∧ f32Value 0 = Sample.finite 0 ∧
      f32Value 0x3F800000 = Sample.finite 1) ∧
    Sample.nan ∉ [Sample.negInf, Sample.finite 0, Sample.finite 1] ∧
    getMinAndMax Sample.lt [Sample.negInf, Sample.finite 0, Sample.finite 1]
      = some (Sample.negInf, Sample.finite 1) ∧
    Sample.lt Sample.negInf (Sample.finite 1) = true ∧
    normalize (sampleOps (fun _ => 0)) Sample.negInf (Sample.finite 1) Sample.negInf
      = Sample.nan ∧
    normalize (sampleOps (fun _ => 0)) Sample.negInf (Sample.finite 1) (Sample.finite 0)
      = Sample.nan ∧
    normalize (sampleOps (fun _ => 0)) Sample.negInf (Sample.finite 1) (Sample.finite 1)
      = Sample.nan := by
  refine ⟨rfl, ⟨by decide, by decide, by decide⟩, by decide, by decide,
    ⟨by decide!, by decide!, by decide!⟩, by decide, by decide!, rfl, rfl, rfl, rfl⟩

/-- C20, amended. On a non-empty volume without NaN on which `getMinAndMax`
returns `min < max`, with the arithmetic taken exactly on the values of the
samples: when every sample is finite, the normalised value of every sample lies
in `[0, 255]` and its conversion to `uint8` is its integer part, so nothing wraps
around.  With infinite samples this fails: the normalised value of a sample `v`
is a NaN when `min` is `-Inf` or `v` is `+Inf`, and lies in `[0, 255]` otherwise. -/
theorem normalize_in_range_iff_finite (special : Sample → Fin 256) (packedData : List Nat)
    (min max : Nat) (hnan : ∀ b ∈ packedData, f32IsNaN b = false)
    (hmm : getMinAndMax f32Lt packedData = some (min, max))
    (hlt : f32Lt min max = true) (v : Nat) (hv : v ∈ packedData) :
    ((∀ b ∈ packedData, ∃ q : ℚ, f32Value b = .finite q) →
      NormalizedInRange special (f32Value min) (f32Value max) (f32Value v)) ∧
    (f32Value min = .negInf ∨ f32Value v = .posInf →
      normalize (sampleOps special) (f32Value min) (f32Value max) (f32Value v) = .nan) ∧
    (¬ (f32Value min = .negInf ∨ f32Value v = .posInf) →
      NormalizedInRange special (f32Value min) (f32Value max) (f32Value v)) := by
  have hnan2 : Sample.nan ∉ packedData.map f32Value := by
    intro hmem
    obtain ⟨b, hb, hbv⟩ := List.mem_map.mp hmem
    have := (f32Value_eq_nan_iff b).mp hbv
    rw [hnan b hb] at this
    cases this
  have hlt2 : Sample.lt (f32Value min) (f32Value max) = true := by
    rw [← f32Lt_eq_lt_f32Value]
    exact hlt
  obtain ⟨c1, c2, c3⟩ := normalize_sample_cases special (packedData.map f32Value)
    (f32Value min) (f32Value max) hnan2 (getMinAndMax_f32Value packedData min max hmm) hlt2
    (f32Value v) (List.mem_map_of_mem _ hv)
  refine ⟨?_, c2, c3⟩
  intro hall
  apply c1
  intro s hs
  obtain ⟨b, hb, hbv⟩ := List.mem_map.mp hs
  obtain ⟨q, hq⟩ := hall b hb
  exact ⟨q, by rw [← hbv, hq]⟩

/-- The statement of C20, amended, on the volume `[3, 1, 4, 1, 5]` and its sample 4. -/
theorem normalize_in_range_iff_finite_witness :
    (∀ b ∈ [0x40400000, 0x3F800000, 0x40800000, 0x3F800000, 0x40A00000],
      f32IsNaN b = false) ∧
    getMinAndMax f32Lt [0x40400000, 0x3F800000, 0x40800000, 0x3F800000, 0x40A00000]
      = some (0x3F800000, 0x40A00000) ∧
    f32Lt 0x3F800000 0x40A00000 = true ∧
    0x40800000 ∈ [0x40400000, 0x3F800000, 0x40800000, 0x3F800000, 0x40A00000] ∧
    (f32Value 0x3F800000 = Sample.finite 1 ∧ f32Value 0x40A00000 = Sample.finite 5 ∧
      f32Value 0x40800000 = Sample.finite 4) ∧
    ((∀ b ∈ [0x40400000, 0x3F800000, 0x40800000, 0x3F800000, 0x40A00000],
        ∃ q : ℚ, f32Value b = .finite q) →
      NormalizedInRange (fun _ => 0) (f32Value 0x3F800000) (f32Value 0x40A00000)
        (f32Value 0x40800000)) ∧
    (f32Value 0x3F800000 = .negInf ∨ f32Value 0x40800000 = .posInf →
      normalize (sampleOps (fun _ => 0)) (f32Value 0x3F800000) (f32Value 0x40A00000)
        (f32Value 0x40800000) = .nan) ∧
    (¬ (f32Value 0x3F800000 = .negInf ∨ f32Value 0x40800000 = .posInf) →
      NormalizedInRange (fun _ => 0) (f32Value 0x3F800000) (f32Value 0x40A00000)
        (f32Value 0x40800000)) :=
  ⟨by decide, by decide, by decide, by decide, ⟨by decide!, by decide!, by decide!⟩,
    normalize_in_range_iff_finite (fun _ => 0)
      [0x40400000, 0x3F800000, 0x40800000, 0x3F800000, 0x40A00000] 0x3F800000 0x40A00000
      (by decide) (by decide) (by decide) 0x40800000 (by decide)⟩

end ScalarField2PNGSlice
